import Mathlib

set_option maxHeartbeats 1000000
set_option maxRecDepth 4000

/-!
Verification of the time-tracker-plus-for-obsidian core (src/tracker.ts).

The embedding models the tracker data model (`Entry`, `Tracker`), the JSON
codec (`JSON.stringify` / `JSON.parse` restricted to the shapes the plugin
produces and consumes), legacy migration (`updateLegacyInfo`), the entry-tree
operations (`startNewEntry`, `startSubEntry`, `removeEntry`,
`getRunningEntry`, `isRunning`), the section locator (`loadAllTrackers`),
the section rewriter (`saveTracker`), and the cross-document auto-stop
scanner (`stopAllRunnersInFile`, `stopAllOtherRunningTimers`).

JavaScript dynamic values that can appear in a timestamp slot at runtime
(legacy numeric timestamps next to ISO strings) are modelled by `TimeVal`.
Fallible dynamic code (JSON parsing, field extraction that would throw a
TypeError in strict mode) is modelled with `Option`/`Except`.  Wall-clock
reads (`moment().toISOString()`) are passed in as an explicit `now` string.
-/

/-- A JavaScript value sitting in a `startTime`/`endTime` slot: either a
string (canonical ISO encoding) or a number (legacy Unix-seconds). -/
inductive TimeVal where
  | str (s : String)
  | num (n : Int)
deriving DecidableEq, Repr

/-- The `Entry` interface of tracker.ts: `name`, nullable `startTime` /
`endTime`, optional `subEntries`, optional `collapsed`.  `none` in
`subEntries`/`collapsed` is JavaScript `undefined` (absent key); `none` in
the time fields is JSON `null`. -/
inductive Entry where
  | mk (name : String) (startTime : Option TimeVal) (endTime : Option TimeVal)
       (subEntries : Option (List Entry)) (collapsed : Option Bool)

def Entry.name : Entry → String
  | .mk n _ _ _ _ => n

def Entry.startTime : Entry → Option TimeVal
  | .mk _ st _ _ _ => st

def Entry.endTime : Entry → Option TimeVal
  | .mk _ _ en _ _ => en

def Entry.subEntries : Entry → Option (List Entry)
  | .mk _ _ _ sub _ => sub

def Entry.collapsed : Entry → Option Bool
  | .mk _ _ _ _ c => c

/-- The `Tracker` interface: an ordered list of top-level entries plus an
optional `targetTime` duration-spec string. -/
structure Tracker where
  entries : List Entry
  targetTime : Option String := none

/-- The `SectionInfo` interface: an inclusive 0-based line range. -/
structure SectionInfo where
  lineStart : Nat
  lineEnd : Nat
deriving DecidableEq, Repr

/-!  Structural equality on entries.  The source removes entries by object
identity (`entries.contains(toRemove)` / `entries.remove(toRemove)` use
`indexOf`, i.e. `===`); in a pure embedding identity is modelled as
structural equality, matching the first structurally equal occurrence. -/

mutual

def beqEntry : Entry → Entry → Bool
  | .mk n1 s1 e1 sub1 c1, .mk n2 s2 e2 sub2 c2 =>
    n1 == n2 && s1 == s2 && e1 == e2 && c1 == c2 && beqSubEntries sub1 sub2

def beqSubEntries : Option (List Entry) → Option (List Entry) → Bool
  | none, none => true
  | some l1, some l2 => beqEntryList l1 l2
  | _, _ => false

def beqEntryList : List Entry → List Entry → Bool
  | [], [] => true
  | e1 :: t1, e2 :: t2 => beqEntry e1 e2 && beqEntryList t1 t2
  | _, _ => false

end

/-!  JavaScript numeric coercion.  `updateLegacyInfo` tests
`!isNaN(+entry.startTime)` to detect legacy Unix-second timestamps.  The
model covers the numerals this data contains: optionally signed decimal
integer strings, surrounded by whitespace, with the empty string coercing
to 0 as in JavaScript.  `none` plays the role of `NaN`. -/

def isJsSpace (c : Char) : Bool :=
  c == ' ' || c == '\t' || c == '\n' || c == '\r' || c == '\x0b' || c == '\x0c'

def natOfDigits (l : List Char) : Nat :=
  l.foldl (fun a c => a * 10 + (c.toNat - 48)) 0

def jsToNumber? (s : String) : Option Int :=
  let cs := ((s.data.dropWhile isJsSpace).reverse.dropWhile isJsSpace).reverse
  match cs with
  | [] => some 0
  | '+' :: rest =>
    if rest.all Char.isDigit && !rest.isEmpty then some (natOfDigits rest) else none
  | '-' :: rest =>
    if rest.all Char.isDigit && !rest.isEmpty then some (-(natOfDigits rest : Int)) else none
  | _ => if cs.all Char.isDigit then some (natOfDigits cs) else none

/-- JavaScript truthiness of a timestamp slot: `null`/`undefined`, `""` and
`0` are falsy, everything else truthy. -/
def truthyTime : Option TimeVal → Bool
  | none => false
  | some (.str s) => !(s == "")
  | some (.num n) => !(n == 0)

/-- `+v` on a timestamp slot value. -/
def toNumberOfTimeVal : TimeVal → Option Int
  | .str s => jsToNumber? s
  | .num n => some n

/-!  Model of the external `moment.unix(n).toISOString()` collaborator at
integer-second precision: UTC Gregorian calendar rendering
`YYYY-MM-DDTHH:MM:SS.000Z` (expanded years outside 0..9999). -/

def pad2 (n : Nat) : String := if n < 10 then "0" ++ toString n else toString n

def pad4 (n : Nat) : String :=
  if n < 10 then "000" ++ toString n
  else if n < 100 then "00" ++ toString n
  else if n < 1000 then "0" ++ toString n
  else toString n

def pad6 (n : Nat) : String :=
  if n < 10000 then "00" ++ pad4 n
  else if n < 100000 then "0" ++ toString n
  else toString n

/-- Civil date from days since the Unix epoch (standard era-based
conversion). -/
def civilFromDays (z0 : Int) : Int × Nat × Nat :=
  let z := z0 + 719468
  let era : Int := Int.fdiv z 146097
  let doe : Nat := (z - era * 146097).toNat
  let yoe : Nat := (doe - doe / 1460 + doe / 36524 - doe / 146096) / 365
  let doy : Nat := doe - (365 * yoe + yoe / 4 - yoe / 100)
  let mp : Nat := (5 * doy + 2) / 153
  let d : Nat := doy - (153 * mp + 2) / 5 + 1
  let m : Nat := if mp < 10 then mp + 3 else mp - 9
  let y : Int := (yoe : Int) + era * 400 + (if m ≤ 2 then 1 else 0)
  (y, m, d)

def isoOfUnix (n : Int) : String :=
  let days := Int.fdiv n 86400
  let secs := (n - days * 86400).toNat
  let ymd := civilFromDays days
  let y := ymd.1
  let yearStr :=
    if 0 ≤ y then (if y ≤ 9999 then pad4 y.toNat else "+" ++ pad6 y.toNat)
    else "-" ++ pad6 (-y).toNat
  yearStr ++ "-" ++ pad2 ymd.2.1 ++ "-" ++ pad2 ymd.2.2 ++ "T" ++
    pad2 (secs / 3600) ++ ":" ++ pad2 (secs % 3600 / 60) ++ ":" ++
    pad2 (secs % 60) ++ ".000Z"

/-!  `updateLegacyInfo`: converts truthy numeric timestamps to ISO strings
and normalises `null`/empty `subEntries` to absent, recursively. -/

def migrateTime : Option TimeVal → Option TimeVal
  | none => none
  | some v =>
    if truthyTime (some v) then
      match toNumberOfTimeVal v with
      | some n => some (.str (isoOfUnix n))
      | none => some v
    else some v

mutual

def migrateEntry : Entry → Entry
  | .mk n st en sub c =>
    .mk n (migrateTime st) (migrateTime en)
      (match sub with
       | none => none
       | some [] => none
       | some (e :: es) => some (migrateList (e :: es))) c

def migrateList : List Entry → List Entry
  | [] => []
  | e :: es => migrateEntry e :: migrateList es

end

example :
    migrateList [.mk "a" (some (.num 0)) (some (.str "86400")) (some []) none] =
      [.mk "a" (some (.num 0)) (some (.str "1970-01-02T00:00:00.000Z")) none none] := by
  rfl

/-!  JSON values.  Numbers are modelled at integer precision (the payloads
this plugin writes contain no fractional numbers; legacy numeric timestamps
are integer Unix seconds). -/

inductive Json where
  | null
  | bool (b : Bool)
  | num (n : Int)
  | str (s : String)
  | arr (elems : List Json)
  | obj (fields : List (String × Json))

/-!  Serializer: `JSON.stringify`'s compact output.  String escaping follows
the JSON.stringify rules: quote, backslash, and the C0 controls (with the
five short escapes). -/

def hexDigitChar (n : Nat) : Char :=
  if n < 10 then Char.ofNat (48 + n) else Char.ofNat (87 + n)

def escapeChar (c : Char) : List Char :=
  if c = '"' then ['\\', '"']
  else if c = '\\' then ['\\', '\\']
  else if c = '\n' then ['\\', 'n']
  else if c = '\r' then ['\\', 'r']
  else if c = '\t' then ['\\', 't']
  else if c = '\x08' then ['\\', 'b']
  else if c = '\x0c' then ['\\', 'f']
  else if c.toNat < 32 then
    ['\\', 'u', '0', '0', hexDigitChar (c.toNat / 16), hexDigitChar (c.toNat % 16)]
  else [c]

def encodeStrL (l : List Char) : List Char :=
  '"' :: (l.map escapeChar).flatten ++ ['"']

mutual

def serVL : Json → List Char
  | .null => "null".data
  | .bool true => "true".data
  | .bool false => "false".data
  | .num n => (toString n).data
  | .str s => encodeStrL s.data
  | .arr l => '[' :: serEL l ++ [']']
  | .obj fs => '{' :: serML fs ++ ['}']

def serEL : List Json → List Char
  | [] => []
  | [v] => serVL v
  | v :: w :: t => serVL v ++ ',' :: serEL (w :: t)

def serML : List (String × Json) → List Char
  | [] => []
  | [(k, v)] => encodeStrL k.data ++ ':' :: serVL v
  | (k, v) :: f :: t => encodeStrL k.data ++ ':' :: serVL v ++ ',' :: serML (f :: t)

end

def serializeJson (j : Json) : String := ⟨serVL j⟩

/-!  Parser: `JSON.parse`.  Recursive descent over the character list; the
nesting depth is bounded by a fuel argument (instantiated with the input
length, which dominates the depth of any parseable value). -/

def isJsonWs (c : Char) : Bool := c == ' ' || c == '\t' || c == '\n' || c == '\r'

def skipWs (cs : List Char) : List Char := cs.dropWhile isJsonWs

def hexVal? (c : Char) : Option Nat :=
  if '0' ≤ c ∧ c ≤ '9' then some (c.toNat - 48)
  else if 'a' ≤ c ∧ c ≤ 'f' then some (c.toNat - 87)
  else if 'A' ≤ c ∧ c ≤ 'F' then some (c.toNat - 55)
  else none

def hex4? (a b c d : Char) : Option Nat := do
  let va ← hexVal? a
  let vb ← hexVal? b
  let vc ← hexVal? c
  let vd ← hexVal? d
  pure (((va * 16 + vb) * 16 + vc) * 16 + vd)

mutual

def parseStrChars : List Char → Option (List Char × List Char)
  | [] => none
  | c :: rest =>
    if c = '"' then some ([], rest)
    else if c = '\\' then parseEscape rest
    else if c.toNat < 32 then none
    else (parseStrChars rest).map (fun p => (c :: p.1, p.2))

def parseEscape : List Char → Option (List Char × List Char)
  | [] => none
  | e :: rest =>
    if e = '"' then (parseStrChars rest).map (fun p => ('"' :: p.1, p.2))
    else if e = '\\' then (parseStrChars rest).map (fun p => ('\\' :: p.1, p.2))
    else if e = '/' then (parseStrChars rest).map (fun p => ('/' :: p.1, p.2))
    else if e = 'b' then (parseStrChars rest).map (fun p => ('\x08' :: p.1, p.2))
    else if e = 'f' then (parseStrChars rest).map (fun p => ('\x0c' :: p.1, p.2))
    else if e = 'n' then (parseStrChars rest).map (fun p => ('\n' :: p.1, p.2))
    else if e = 'r' then (parseStrChars rest).map (fun p => ('\r' :: p.1, p.2))
    else if e = 't' then (parseStrChars rest).map (fun p => ('\t' :: p.1, p.2))
    else if e = 'u' then parseUnicode rest
    else none

def parseUnicode : List Char → Option (List Char × List Char)
  | h1 :: h2 :: h3 :: h4 :: rest =>
    (match hex4? h1 h2 h3 h4 with
     | none => none
     | some v =>
       if v < 0xd800 ∨ 0xe000 ≤ v then
         (parseStrChars rest).map (fun p => (Char.ofNat v :: p.1, p.2))
       else if v < 0xdc00 then parseLowSurrogate v rest
       else none)
  | _ => none

def parseLowSurrogate (v : Nat) : List Char → Option (List Char × List Char)
  | '\\' :: 'u' :: g1 :: g2 :: g3 :: g4 :: rest =>
    (match hex4? g1 g2 g3 g4 with
     | some w =>
       if 0xdc00 ≤ w ∧ w < 0xe000 then
         (parseStrChars rest).map
           (fun p => (Char.ofNat (0x10000 + (v - 0xd800) * 0x400 + (w - 0xdc00)) :: p.1, p.2))
       else none
     | none => none)
  | _ => none

end

/-- Evaluate a parsed JSON numeral at integer precision (fractions and
negative exponents are floored). -/
def finishNumber (neg : Bool) (intDigits fracDigits : List Char) (cs : List Char) :
    Option (Int × List Char) :=
  let (expVal, cs4) : Int × List Char :=
    match cs with
    | 'e' :: t => jsonExpPart t
    | 'E' :: t => jsonExpPart t
    | _ => (0, cs)
  match cs with
  | 'e' :: t =>
    if jsonExpBad t then none else finishNumberVal neg intDigits fracDigits expVal cs4
  | 'E' :: t =>
    if jsonExpBad t then none else finishNumberVal neg intDigits fracDigits expVal cs4
  | _ => finishNumberVal neg intDigits fracDigits expVal cs4
where
  jsonExpPart (t : List Char) : Int × List Char :=
    let (sgn, t1) : Int × List Char :=
      match t with
      | '+' :: u => (1, u)
      | '-' :: u => (-1, u)
      | _ => (1, t)
    let p := t1.span Char.isDigit
    (sgn * (natOfDigits p.1 : Int), p.2)
  jsonExpBad (t : List Char) : Bool :=
    let t1 := match t with
      | '+' :: u => u
      | '-' :: u => u
      | _ => t
    (t1.span Char.isDigit).1.isEmpty
  finishNumberVal (neg : Bool) (intDigits fracDigits : List Char) (expVal : Int)
      (rest : List Char) : Option (Int × List Char) :=
    let mantissa : Int := (natOfDigits (intDigits ++ fracDigits) : Int)
    let signed : Int := if neg then -mantissa else mantissa
    let scale : Int := expVal - fracDigits.length
    let v : Int :=
      if 0 ≤ scale then signed * (10 : Int) ^ scale.toNat
      else Int.fdiv signed ((10 : Int) ^ (-scale).toNat)
    some (v, rest)

/-- JSON number grammar (`-? int frac? exp?`, no leading zeros). -/
def parseNumber (cs : List Char) : Option (Int × List Char) :=
  let (neg, cs1) : Bool × List Char :=
    match cs with
    | '-' :: t => (true, t)
    | _ => (false, cs)
  let (intDigits, cs2) := cs1.span Char.isDigit
  match intDigits with
  | [] => none
  | d0 :: ds =>
    if d0 = '0' ∧ ds ≠ [] then none
    else
      match cs2 with
      | '.' :: t =>
        let p := t.span Char.isDigit
        if p.1.isEmpty then none else finishNumber neg intDigits p.1 p.2
      | _ => finishNumber neg intDigits [] cs2

mutual

def parseValue : Nat → List Char → Option (Json × List Char)
  | 0, _ => none
  | fuel + 1, cs0 =>
    let cs := skipWs cs0
    match cs with
    | 'n' :: 'u' :: 'l' :: 'l' :: rest => some (.null, rest)
    | 't' :: 'r' :: 'u' :: 'e' :: rest => some (.bool true, rest)
    | 'f' :: 'a' :: 'l' :: 's' :: 'e' :: rest => some (.bool false, rest)
    | '"' :: rest => (parseStrChars rest).map (fun p => (.str ⟨p.1⟩, p.2))
    | '[' :: rest =>
      let r := skipWs rest
      if r.head? = some ']' then some (.arr [], r.tail)
      else (parseElems fuel r).map (fun p => (.arr p.1, p.2))
    | '{' :: rest =>
      let r := skipWs rest
      if r.head? = some '}' then some (.obj [], r.tail)
      else (parseMembers fuel r).map (fun p => (.obj p.1, p.2))
    | _ => (parseNumber cs).map (fun p => (.num p.1, p.2))

def parseElems : Nat → List Char → Option (List Json × List Char)
  | 0, _ => none
  | fuel + 1, cs => do
    let (v, rest) ← parseValue fuel cs
    match skipWs rest with
    | ',' :: rest2 => do
      let (vs, rest3) ← parseElems fuel rest2
      pure (v :: vs, rest3)
    | ']' :: rest2 => pure ([v], rest2)
    | _ => none

def parseMembers : Nat → List Char → Option (List (String × Json) × List Char)
  | 0, _ => none
  | fuel + 1, cs =>
    match skipWs cs with
    | '"' :: rest => do
      let (k, rest1) ← parseStrChars rest
      match skipWs rest1 with
      | ':' :: rest2 => do
        let (v, rest3) ← parseValue fuel rest2
        match skipWs rest3 with
        | ',' :: rest4 => do
          let (fs, rest5) ← parseMembers fuel rest4
          pure ((⟨k⟩, v) :: fs, rest5)
        | '}' :: rest4 => pure ([(⟨k⟩, v)], rest4)
        | _ => none
      | _ => none
    | _ => none

end

def parseJson (s : String) : Option Json :=
  match parseValue (s.data.length + 1) s.data with
  | some (j, rest) => if (skipWs rest).isEmpty then some j else none
  | none => none

example : parseJson "\x7b\"a\":[1,null,\"x\"]\x7d" =
    some (.obj [("a", .arr [.num 1, .null, .str "x"])]) := by rfl

example : parseJson "\x7boops" = none := by rfl

example : parseJson (serializeJson (.obj [("k", .str "a\nb\"c")])) =
    some (.obj [("k", .str "a\nb\"c")]) := by rfl

/-!  Tracker encoding: `JSON.stringify(tracker)`.  Key order is the
insertion order of the objects this plugin builds and round-trips:
`name, startTime, endTime, subEntries?, collapsed?` for entries (absent
optional keys — JavaScript `undefined` — are omitted, exactly as
`JSON.stringify` omits `undefined`-valued properties), and
`entries, targetTime?` for trackers. -/

def timeToJson : Option TimeVal → Json
  | none => .null
  | some (.str s) => .str s
  | some (.num n) => .num n

mutual

def entryToJson : Entry → Json
  | .mk n st en sub c =>
    .obj (("name", .str n) :: ("startTime", timeToJson st) :: ("endTime", timeToJson en) ::
      ((match sub with
        | none => []
        | some l => [("subEntries", .arr (entryListToJson l))]) ++
       (match c with
        | none => []
        | some b => [("collapsed", .bool b)])))

def entryListToJson : List Entry → List Json
  | [] => []
  | e :: es => entryToJson e :: entryListToJson es

end

def trackerToJson (t : Tracker) : Json :=
  .obj (("entries", .arr (entryListToJson t.entries)) ::
    (match t.targetTime with
     | none => []
     | some s => [("targetTime", .str s)]))

def encodeTracker (t : Tracker) : String := serializeJson (trackerToJson t)

/-!  Tracker extraction from a parsed JSON value.  The source does no
validation (`JSON.parse(json) as Tracker`); field reads that would make the
subsequent traversals throw a TypeError (strict mode) are modelled as
`Except.error`, and the interface-shaped reads succeed.  A duplicate key in
a JSON object resolves to its last occurrence, as in `JSON.parse`. -/

def lookupField : List (String × Json) → String → Option Json
  | [], _ => none
  | (k', v) :: fs, k =>
    match lookupField fs k with
    | some r => some r
    | none => if k' = k then some v else none

def timeFromJson : Json → Except String (Option TimeVal)
  | .null => .ok none
  | .str s => .ok (some (.str s))
  | .num n => .ok (some (.num n))
  | _ => .error "timestamp value outside the model"

mutual

def entryFromJson : Json → Except String Entry
  | .obj fs => do
    let name ← match lookupField fs "name" with
      | some (.str s) => Except.ok s
      | _ => Except.error "name is not a string"
    let st ← match lookupField fs "startTime" with
      | none => Except.ok none
      | some j => timeFromJson j
    let en ← match lookupField fs "endTime" with
      | none => Except.ok none
      | some j => timeFromJson j
    let sub ← subEntriesFromFields fs
    let c ← match lookupField fs "collapsed" with
      | none => Except.ok none
      | some (.bool b) => Except.ok (some b)
      | some _ => Except.error "collapsed is not a boolean"
    pure (.mk name st en sub c)
  | _ => .error "entry is not an object"

/-- Interpretation of the last `subEntries` field of an entry object
(`none` when absent or `null`). -/
def subEntriesFromFields : List (String × Json) → Except String (Option (List Entry))
  | [] => .ok none
  | (k, v) :: fs => do
    match ← subEntriesFromFields fs with
    | some r => pure (some r)
    | none =>
      if k = "subEntries" then
        match v with
        | .null => pure none
        | .arr l => do
          let es ← entryListFromJson l
          pure (some es)
        | _ => Except.error "subEntries is not an array"
      else pure none

def entryListFromJson : List Json → Except String (List Entry)
  | [] => .ok []
  | j :: js => do
    let e ← entryFromJson j
    let es ← entryListFromJson js
    pure (e :: es)

end

def trackerFromJson : Json → Except String Tracker
  | .obj fs => do
    let es ← match lookupField fs "entries" with
      | some (.arr l) => entryListFromJson l
      | _ => Except.error "entries is not an array"
    let tt ← match lookupField fs "targetTime" with
      | none => Except.ok none
      | some (.str s) => Except.ok (some s)
      | some _ => Except.error "targetTime outside the model"
    pure { entries := es, targetTime := tt }
  | _ => .error "tracker is not an object"

/-- The body of `loadTracker`'s `try` block (and the per-block decode of the
auto-stop scanner, which calls `JSON.parse` on a payload directly):
`JSON.parse` followed by use of the result as a `Tracker`. -/
def decodeTrackerE (json : String) : Except String Tracker :=
  match parseJson json with
  | none => .error "JSON.parse failed"
  | some j => trackerFromJson j

/-- `loadTracker`: empty input or any failure degrades to the empty
tracker; successful decodes are normalised by `updateLegacyInfo`. -/
def loadTracker (json : String) : Tracker :=
  if json == "" then { entries := [] }
  else
    match decodeTrackerE json with
    | .ok t => { entries := migrateList t.entries, targetTime := t.targetTime }
    | .error _ => { entries := [] }

example :
    loadTracker "\x7b\"entries\":[\x7b\"name\":\"a\",\"startTime\":\"3\",\"endTime\":null\x7d]\x7d" =
      { entries := [.mk "a" (some (.str "1970-01-01T00:00:03.000Z")) none none none] } := by
  rfl

example : loadTracker "\x7boops" = { entries := [] } := by rfl

/-!  Entry tree operations. -/

/-!  `getRunningEntry`: depth-first search for the first leaf with a falsy
`endTime`; an entry with a present `subEntries` array (even an empty one —
`[]` is truthy) is treated as a container and its own `endTime` is never
examined. -/
mutual

def getRunningEntryL : List Entry → Option Entry
  | [] => none
  | e :: es =>
    (match getRunningEntryE e with
     | some r => some r
     | none => getRunningEntryL es)

def getRunningEntryE : Entry → Option Entry
  | .mk _ _ _ (some l) _ => getRunningEntryL l
  | .mk n st en none c => if truthyTime en then none else some (.mk n st en none c)

end

/-- `isRunning(tracker)`: `!!getRunningEntry(tracker.entries)`. -/
def isRunning (t : Tracker) : Bool := (getRunningEntryL t.entries).isSome

/-!  Number of leaves with a falsy `endTime`, under the same leaf/container
reading as `getRunningEntry` (for stating the search properties). -/
mutual

def countRunningL : List Entry → Nat
  | [] => 0
  | e :: es => countRunningE e + countRunningL es

def countRunningE : Entry → Nat
  | .mk _ _ _ (some l) _ => countRunningL l
  | .mk _ _ en none _ => if truthyTime en then 0 else 1

end

/-- `startNewEntry`: appends a new running leaf, synthesising
`Segment {n+1}` when the requested name is empty. -/
def startNewEntry (t : Tracker) (name : String) (now : String) : Tracker :=
  let name := if name == "" then "Segment " ++ toString (t.entries.length + 1) else name
  { t with entries := t.entries ++ [.mk name (some (.str now)) none none none] }

/-- `startSubEntry`: converts a leaf into a container (moving its times into
a child named `Part 1`), then appends a running child named `name` or
`Part {k+1}`. -/
def startSubEntry (e : Entry) (name : String) (now : String) : Entry :=
  match e with
  | .mk n st en sub c =>
    let conv : Option TimeVal × Option TimeVal × List Entry :=
      match sub with
      | none => (none, none, [Entry.mk "Part 1" st en none c])
      | some l => (st, en, l)
    let name := if name == "" then "Part " ++ toString (conv.2.2.length + 1) else name
    .mk n conv.1 conv.2.1
      (some (conv.2.2 ++ [Entry.mk name (some (.str now)) none none none])) c

/-!  The running leaf located by `getRunningEntry`, with its `endTime` set
to `now` (models `runningEntry.endTime = moment().toISOString()` as a tree
update); `none` when no leaf is running. -/
mutual

def stopRunningL (now : String) : List Entry → Option (List Entry)
  | [] => none
  | e :: es =>
    (match stopRunningE now e with
     | some e' => some (e' :: es)
     | none => (stopRunningL now es).map (fun es' => e :: es'))

def stopRunningE (now : String) : Entry → Option Entry
  | .mk n st en (some l) c => (stopRunningL now l).map (fun l' => .mk n st en (some l') c)
  | .mk n st en none c =>
    if truthyTime en then none else some (.mk n st (some (.str now)) none c)

end

/-- `entries.contains(toRemove)` (identity modelled structurally). -/
def entryContainsL (l : List Entry) (t : Entry) : Bool := l.any (fun e => beqEntry e t)

/-- `entries.remove(toRemove)`: remove the first matching occurrence. -/
def removeFirstL : List Entry → Entry → List Entry
  | [], _ => []
  | e :: es, t => if beqEntry e t then es else e :: removeFirstL es t

/-- The `for (let entry of entries)` recursion of `removeEntry`, including
the flatten-to-leaf step when one sub-entry remains.  The recursive
`removeEntry(entry.subEntries, toRemove)` call is inlined (membership test,
first-occurrence removal, else descend), keeping the recursion structural. -/
def removeEntryLoop : List Entry → Entry → Bool × List Entry
  | [], _ => (false, [])
  | .mk n st en (some l) c :: es, t =>
    (match (if entryContainsL l t then (true, removeFirstL l t) else removeEntryLoop l t) with
     | (true, l') =>
       (match l' with
        | [single] =>
          (true, Entry.mk n single.startTime single.endTime none c :: es)
        | _ => (true, Entry.mk n st en (some l') c :: es))
     | (false, _) =>
       let r := removeEntryLoop es t
       (r.1, Entry.mk n st en (some l) c :: r.2))
  | .mk n st en none c :: es, t =>
    let r := removeEntryLoop es t
    (r.1, Entry.mk n st en none c :: r.2)

/-- `removeEntry(entries, toRemove)`: returns whether removal occurred and
the updated list read back from the in-place mutation. -/
def removeEntryL (entries : List Entry) (t : Entry) : Bool × List Entry :=
  if entryContainsL entries t then (true, removeFirstL entries t)
  else removeEntryLoop entries t

example :
    removeEntryL
      [Entry.mk "P" none none
        (some [Entry.mk "a" (some (.str "s1")) (some (.str "e1")) none none,
               Entry.mk "b" (some (.str "s2")) (some (.str "e2")) none none]) none]
      (Entry.mk "a" (some (.str "s1")) (some (.str "e1")) none none) =
      (true, [Entry.mk "P" (some (.str "s2")) (some (.str "e2")) none none]) := by
  rfl

/-!  Line splitting and joining (`content.split("\n")`, `lines.join("\n")`,
`line.trimEnd()`), implemented over character lists so that they both
evaluate and support induction. -/

def splitLinesL : List Char → List (List Char)
  | [] => [[]]
  | c :: cs =>
    if c = '\n' then [] :: splitLinesL cs
    else
      match splitLinesL cs with
      | [] => [[c]]
      | l :: ls => (c :: l) :: ls

/-- `content.split("\n")`. -/
def splitLines (s : String) : List String := (splitLinesL s.data).map (fun l => ⟨l⟩)

/-- `lines.join("\n")`. -/
def joinNL : List String → String
  | [] => ""
  | [l] => l
  | l :: l2 :: ls => l ++ "\n" ++ joinNL (l2 :: ls)

/-- `line.trimEnd()`. -/
def jsTrimEnd (s : String) : String := ⟨(s.data.reverse.dropWhile isJsSpace).reverse⟩

/-!  Section Rewriter: the pure text core of `saveTracker` — split the
document into lines, keep the lines with index `<= lineStart` and those
with index `>= lineEnd`, and put the serialized tracker between them. -/

def saveTrackerContent (content : String) (sec : SectionInfo) (tracker : Tracker) : String :=
  let lines := splitLines content
  let prev := joinNL ((lines.enum.filter (fun p => p.1 ≤ sec.lineStart)).map Prod.snd)
  let next := joinNL ((lines.enum.filter (fun p => sec.lineEnd ≤ p.1)).map Prod.snd)
  prev ++ "\n" ++ encodeTracker tracker ++ "\n" ++ next

/-!  Document Section Locator: the line scan of `loadAllTrackers`.
`lineStart` is the index of the first payload line (fence index + 1) and
`lineEnd` the index of the last payload line (closing fence index - 1). -/

def scanBlocks : List String → Nat → Option (Nat × String) → List (SectionInfo × Tracker)
  | [], _, _ => []
  | line :: rest, i, curr =>
    if jsTrimEnd line == "```time-tracker-plus" then
      scanBlocks rest (i + 1) (some (i + 1, ""))
    else
      match curr with
      | some (ls, text) =>
        if jsTrimEnd line == "```" then
          ({ lineStart := ls, lineEnd := i - 1 }, loadTracker text) :: scanBlocks rest (i + 1) none
        else scanBlocks rest (i + 1) (some (ls, text ++ line ++ "\n"))
      | none => scanBlocks rest (i + 1) none

def loadAllTrackers (content : String) : List (SectionInfo × Tracker) :=
  scanBlocks (splitLines content) 0 none

example :
    loadAllTrackers "a\n```time-tracker-plus\n\x7b\"entries\":[]\x7d\n```\nb" =
      [({ lineStart := 2, lineEnd := 2 }, { entries := [] })] := by rfl

/-!  Cross-Document Auto-Stop Scanner.  The regex
`/```time-tracker-plus\n([\s\S]*?)\n```/g` matches, non-overlapping and
left to right, an occurrence of the opening tag followed lazily by a
payload up to the first subsequent `\n```  `. -/

def openTagL : List Char := ("```time-tracker-plus".data) ++ ['\n']

def closeTagL : List Char := '\n' :: "```".data

/-- Split at the first occurrence of `pat`: `some (before, after)` with the
pattern itself dropped. -/
def strFindSplit (pat : List Char) : List Char → Option (List Char × List Char)
  | [] => if pat.isEmpty then some ([], []) else none
  | c :: cs =>
    if pat.isPrefixOf (c :: cs) then some ([], (c :: cs).drop pat.length)
    else (strFindSplit pat cs).map (fun p => (c :: p.1, p.2))

/-- All successive matches of the fenced-block pattern, as
`(match[0], match[1])` pairs.  One unit of fuel per match suffices because
every match consumes at least one character. -/
def findBlocksAux : Nat → List Char → List (List Char × List Char)
  | 0, _ => []
  | fuel + 1, cs =>
    match strFindSplit openTagL cs with
    | none => []
    | some (_, rest) =>
      match strFindSplit closeTagL rest with
      | none => []
      | some (payload, rest2) =>
        (openTagL ++ payload ++ closeTagL, payload) :: findBlocksAux fuel rest2

def findBlocksL (cs : List Char) : List (List Char × List Char) :=
  findBlocksAux (cs.length + 1) cs

/-- `newContent.replace(match, replacement)` with a string pattern: replace
the first occurrence, if any.  (The `$`-substitution of `String.replace` is
not modelled; the replacement is inserted literally.) -/
def replaceFirstL (s pat repl : List Char) : List Char :=
  match strFindSplit pat s with
  | none => s
  | some (pre, post) => pre ++ repl ++ post

/-- One step of the scan loop body of `stopAllRunnersInFile`: decode the
block (skipping, not failing, on error), and if the tracker is running,
stop the running leaf and splice the updated serialization over the first
occurrence of the matched text. -/
def stopBlockStep (now : String) (acc : Bool × List Char) (b : List Char × List Char) :
    Bool × List Char :=
  match decodeTrackerE ⟨b.2⟩ with
  | .error _ => acc
  | .ok tracker =>
    if isRunning tracker then
      match stopRunningL now tracker.entries with
      | some entries' =>
        let updated := encodeTracker { tracker with entries := entries' }
        (true, replaceFirstL acc.2 b.1 (openTagL ++ updated.data ++ closeTagL))
      | none => acc
    else acc

/-- `stopAllRunnersInFile(fileContent, ...)`: returns the `modified` flag
and the final in-memory content (written back to the store exactly when the
flag is set). -/
def stopAllRunnersInFile (fileContent : String) (now : String) : Bool × String :=
  let r := (findBlocksL fileContent.data).foldl (stopBlockStep now) (false, fileContent.data)
  (r.1, ⟨r.2⟩)

/-- `stopAllOtherRunningTimers(app, currentFileName)`: iterate over every
markdown file in the store and run `stopAllRunnersInFile` on it; a file's
content is replaced exactly when its scan reports a modification. -/
def stopAllOtherRunningTimers (store : List (String × String)) (currentFileName : String)
    (now : String) : List (String × String) :=
  match store with
  | [] => []
  | (path, content) :: rest =>
    let r := stopAllRunnersInFile content now
    (path, if r.1 then r.2 else content) ::
      stopAllOtherRunningTimers rest currentFileName now

example :
    stopAllRunnersInFile
      "x\n```time-tracker-plus\n\x7b\"entries\":[\x7b\"name\":\"a\",\"startTime\":\"t0\",\"endTime\":null\x7d]\x7d\n```\ny"
      "t1" =
      (true,
        "x\n```time-tracker-plus\n\x7b\"entries\":[\x7b\"name\":\"a\",\"startTime\":\"t0\",\"endTime\":\"t1\"\x7d]\x7d\n```\ny") := by
  rfl

/-!  Well-formed trees: every container holds at least two children (the
data-model invariant; one- or zero-child containers are disallowed resting
states). -/

mutual

def wfEntry : Entry → Bool
  | .mk _ _ _ none _ => true
  | .mk _ _ _ (some l) _ => decide (2 ≤ l.length) && wfList l

def wfList : List Entry → Bool
  | [] => true
  | e :: es => wfEntry e && wfList es

end

/-!  Number-free JSON values (the canonical tracker payloads contain no
numbers) and the nesting fuel a value needs in the parser. -/

mutual

def numFreeV : Json → Bool
  | .null => true
  | .bool _ => true
  | .num _ => false
  | .str _ => true
  | .arr l => numFreeE l
  | .obj fs => numFreeM fs

def numFreeE : List Json → Bool
  | [] => true
  | v :: vs => numFreeV v && numFreeE vs

def numFreeM : List (String × Json) → Bool
  | [] => true
  | (_, v) :: fs => numFreeV v && numFreeM fs

end

mutual

def fuelNeedV : Json → Nat
  | .null => 1
  | .bool _ => 1
  | .num _ => 1
  | .str _ => 1
  | .arr l => 1 + fuelNeedE l
  | .obj fs => 1 + fuelNeedM fs

def fuelNeedE : List Json → Nat
  | [] => 0
  | v :: vs => 1 + max (fuelNeedV v) (fuelNeedE vs)

def fuelNeedM : List (String × Json) → Nat
  | [] => 0
  | (_, v) :: fs => 1 + max (fuelNeedV v) (fuelNeedM fs)

end

/-!  Canonical trackers: every timestamp is a non-numeric string (or null),
and `subEntries` is either absent or a non-empty list — exactly the data
this plugin itself writes after migration. -/

def canonicalTime : Option TimeVal → Bool
  | none => true
  | some (.num _) => false
  | some (.str s) => (jsToNumber? s).isNone

mutual

def canonicalEntry : Entry → Bool
  | .mk _ st en none _ => canonicalTime st && canonicalTime en
  | .mk _ _ _ (some []) _ => false
  | .mk _ st en (some (e :: es)) _ =>
    canonicalTime st && canonicalTime en && canonicalList (e :: es)

def canonicalList : List Entry → Bool
  | [] => true
  | e :: es => canonicalEntry e && canonicalList es

end

/-- A concrete canonical tracker exercising nesting, a stopped and a
running leaf, `collapsed`, and a target time. -/
def sampleTracker : Tracker :=
  { entries := [Entry.mk "job" none none
      (some [Entry.mk "Part 1" (some (.str "2024-01-01T08:00:00.000Z"))
               (some (.str "2024-01-01T09:00:00.000Z")) none none,
             Entry.mk "Part 2" (some (.str "2024-01-01T10:00:00.000Z")) none none
               (some true)]) none],
    targetTime := some "2h" }

/-- A matched block decodes successfully to a running tracker (the blocks
the scan actually rewrites). -/
def blockRunning (b : List Char × List Char) : Bool :=
  match decodeTrackerE ⟨b.2⟩ with
  | .ok t => isRunning t
  | .error _ => false

/-- The replacement text the scan splices for a block (the block's own
matched text when it is skipped). -/
def stopReplacement (now : String) (b : List Char × List Char) : List Char :=
  match decodeTrackerE ⟨b.2⟩ with
  | .ok t =>
    (match stopRunningL now t.entries with
     | some es' => openTagL ++ (encodeTracker { t with entries := es' }).data ++ closeTagL
     | none => b.1)
  | .error _ => b.1

/-!  Lemmas: the index filters of `saveTrackerContent` are take/drop. -/

theorem enumFrom_filter_le_map (l : List String) (k : Nat) :
    ∀ i, ((List.enumFrom i l).filter (fun p => p.1 ≤ k)).map Prod.snd = l.take (k + 1 - i) := by
  induction l with
  | nil => intro i; simp
  | cons a t ih =>
    intro i
    simp only [List.enumFrom, List.filter_cons]
    by_cases h : i ≤ k
    · have hk : k + 1 - i = (k - i) + 1 := by omega
      have hk2 : k + 1 - (i + 1) = k - i := by omega
      simp only [h, decide_eq_true_eq, if_pos h, if_true, List.map_cons, ih (i + 1), hk, hk2,
        List.take_succ_cons]
    · have hk : k + 1 - i = 0 := by omega
      have hk2 : k + 1 - (i + 1) = 0 := by omega
      simp only [decide_eq_true_eq, if_neg h, ih (i + 1), hk, hk2, List.take_zero]

theorem enumFrom_filter_ge_map (l : List String) (k : Nat) :
    ∀ i, ((List.enumFrom i l).filter (fun p => k ≤ p.1)).map Prod.snd = l.drop (k - i) := by
  induction l with
  | nil => intro i; simp
  | cons a t ih =>
    intro i
    simp only [List.enumFrom, List.filter_cons]
    by_cases h : k ≤ i
    · have hk : k - i = 0 := by omega
      have hk2 : k - (i + 1) = 0 := by omega
      simp only [h, decide_eq_true_eq, if_pos h, if_true, List.map_cons, ih (i + 1), hk, hk2,
        List.drop_zero]
    · have hk : k - i = (k - (i + 1)) + 1 := by omega
      simp only [decide_eq_true_eq, if_neg h, ih (i + 1), hk, List.drop_succ_cons]

/-- C1 (amended): `saveTracker` preserves the lines with index `≤ lineStart`
(inclusive) and the lines with index `≥ lineEnd` (inclusive) verbatim around
the new serialization; with a Locator section `{s, e}` (payload-line
indices) the old first payload line and the old last payload line are
therefore retained, so the exact splice of the claim holds for the
fence-line span `{s-1, e+1}`, not for `{s, e}`. -/
theorem C1_amended (content : String) (sec : SectionInfo) (tr : Tracker) :
    saveTrackerContent content sec tr =
      joinNL ((splitLines content).take (sec.lineStart + 1)) ++ "\n" ++ encodeTracker tr ++
        "\n" ++ joinNL ((splitLines content).drop sec.lineEnd) := by
  unfold saveTrackerContent
  have h1 := enumFrom_filter_le_map (splitLines content) sec.lineStart 0
  have h2 := enumFrom_filter_ge_map (splitLines content) sec.lineEnd 0
  simp only [Nat.sub_zero] at h1 h2
  simp only [List.enum]
  rw [h1, h2]

/-- C1 (counterexample): on a one-block document, the Locator produces the
payload span `{2, 2}`, and rewriting with that span does not reproduce
`L[0..2)` and `L[3..)` around the new payload — the old payload line is
kept on both sides instead. -/
theorem C1_counterexample :
    loadAllTrackers "a\n```time-tracker-plus\n\x7b\"entries\":[]\x7d\n```\nb" =
        [({ lineStart := 2, lineEnd := 2 }, { entries := [] })] ∧
      saveTrackerContent "a\n```time-tracker-plus\n\x7b\"entries\":[]\x7d\n```\nb"
          { lineStart := 2, lineEnd := 2 } { entries := [] } ≠
        joinNL ((splitLines "a\n```time-tracker-plus\n\x7b\"entries\":[]\x7d\n```\nb").take 2) ++
          "\n" ++ encodeTracker { entries := [] } ++ "\n" ++
          joinNL ((splitLines "a\n```time-tracker-plus\n\x7b\"entries\":[]\x7d\n```\nb").drop 3) := by
  exact ⟨rfl, by decide⟩

/-- C2 (amended): the pre-start sweep `stopAllOtherRunningTimers` does not
depend on `currentFileName` at all — it scans every markdown document of
the store, the current one included, rewriting each document whose scan
reports a modification. -/
theorem C2_amended :
    ∀ (store : List (String × String)) (cur cur' now : String),
      stopAllOtherRunningTimers store cur now = stopAllOtherRunningTimers store cur' now ∧
      stopAllOtherRunningTimers store cur now =
        store.map (fun pc =>
          (pc.1, if (stopAllRunnersInFile pc.2 now).1 then (stopAllRunnersInFile pc.2 now).2
                 else pc.2)) := by
  intro store cur cur' now
  constructor
  · induction store with
    | nil => rfl
    | cons p rest ih => simp only [stopAllOtherRunningTimers, ih]
  · induction store with
    | nil => rfl
    | cons p rest ih =>
      cases p with
      | mk path content => simp only [stopAllOtherRunningTimers, ih, List.map_cons]

/-- C2 (counterexample): starting with a store whose only document is the
current one and contains a running tracker block, the sweep rewrites that
very document (its running entry is stopped through the file-rewrite
scanner), instead of leaving the current document to an in-memory
`stopRunning`. -/
theorem C2_counterexample :
    stopAllOtherRunningTimers
        [("cur.md",
          "x\n```time-tracker-plus\n\x7b\"entries\":[\x7b\"name\":\"a\",\"startTime\":\"t0\",\"endTime\":null\x7d]\x7d\n```\ny")]
        "cur.md" "t1" ≠
      [("cur.md",
        "x\n```time-tracker-plus\n\x7b\"entries\":[\x7b\"name\":\"a\",\"startTime\":\"t0\",\"endTime\":null\x7d]\x7d\n```\ny")] ∧
    stopAllOtherRunningTimers
        [("cur.md",
          "x\n```time-tracker-plus\n\x7b\"entries\":[\x7b\"name\":\"a\",\"startTime\":\"t0\",\"endTime\":null\x7d]\x7d\n```\ny")]
        "cur.md" "t1" =
      [("cur.md",
        "x\n```time-tracker-plus\n\x7b\"entries\":[\x7b\"name\":\"a\",\"startTime\":\"t0\",\"endTime\":\"t1\"\x7d]\x7d\n```\ny")] := by
  exact ⟨by decide, rfl⟩

/-!  Lemmas: the depth-first search succeeds exactly when some leaf has a
falsy `endTime`. -/

mutual

theorem getRunningL_isSome_iff : (l : List Entry) →
    ((getRunningEntryL l).isSome = true ↔ 0 < countRunningL l)
  | [] => by simp [getRunningEntryL, countRunningL]
  | e :: es => by
    have he := getRunningE_isSome_iff e
    have hl := getRunningL_isSome_iff es
    simp only [getRunningEntryL, countRunningL]
    cases hge : getRunningEntryE e with
    | some r =>
      rw [hge] at he
      simp only [hge, Option.isSome_some] at he ⊢
      have hpos : 0 < countRunningE e := he.mp trivial
      constructor
      · intro _; omega
      · intro _; trivial
    | none =>
      rw [hge] at he
      simp only [hge, Option.isSome_none] at he ⊢
      have h0 : countRunningE e = 0 := by
        by_contra hne
        exact absurd (he.mpr (by omega)) (by simp)
      rw [h0]
      simpa using hl

theorem getRunningE_isSome_iff : (e : Entry) →
    ((getRunningEntryE e).isSome = true ↔ 0 < countRunningE e)
  | .mk n st en (some l) c => by
    simpa [getRunningEntryE, countRunningE] using getRunningL_isSome_iff l
  | .mk n st en none c => by
    by_cases h : truthyTime en = true <;>
      simp [getRunningEntryE, countRunningE, h]

end

theorem countRunningL_append : ∀ a b : List Entry,
    countRunningL (a ++ b) = countRunningL a + countRunningL b := by
  intro a b
  induction a with
  | nil => simp [countRunningL]
  | cons e es ih => simp [countRunningL, ih]; omega

/-- C3 (counterexample): a tracker with two running leaves has
`isRunning = true`, yet the depth-first search does not find *exactly one*
leaf with a null `endTime` — the claimed equivalence fails. -/
theorem C3_counterexample :
    ¬ (isRunning { entries := [Entry.mk "a" (some (.str "s")) none none none,
                               Entry.mk "b" (some (.str "s")) none none none] } = true ↔
       countRunningL [Entry.mk "a" (some (.str "s")) none none none,
                      Entry.mk "b" (some (.str "s")) none none none] = 1) := by
  decide

/-- C3 (amended): `isRunning` is true iff the tree has *at least one* leaf
with a falsy `endTime` (under the at-most-one-running invariant this is
"exactly one"); and `startNewEntry` on a tracker with no running leaf
yields exactly one running leaf. -/
theorem C3_amended : ∀ (t : Tracker) (name now : String),
    (isRunning t = true ↔ 1 ≤ countRunningL t.entries) ∧
    (countRunningL t.entries = 0 →
      countRunningL (startNewEntry t name now).entries = 1) := by
  intro t name now
  constructor
  · simpa [isRunning] using getRunningL_isSome_iff t.entries
  · intro h
    simp [startNewEntry, countRunningL_append, h, countRunningL, countRunningE, truthyTime]

/-- C3 (witness): starting on the empty tracker yields one running leaf. -/
theorem C3_witness :
    countRunningL (startNewEntry { entries := [] } "x" "t0").entries = 1 :=
  (C3_amended { entries := [] } "x" "t0").2 rfl

/-- C8: `startSubEntry(entry, "")` on a leaf moves the leaf's times into a
first child `Part 1` (which also inherits the `collapsed` flag through the
object spread), clears the parent's own times, and appends a running child
with the synthesized next `Part {k+1}` name; two applications on a
freshly-started leaf named `Work` give children `Part 1`, `Part 2`,
`Part 3`. -/
theorem C8_startSubEntry :
    (∀ (n : String) (st en : Option TimeVal) (c : Option Bool) (now : String),
      startSubEntry (Entry.mk n st en none c) "" now =
        Entry.mk n none none
          (some [Entry.mk "Part 1" st en none c,
                 Entry.mk "Part 2" (some (.str now)) none none none]) c) ∧
    (∀ (st : TimeVal) (now1 now2 : String),
      startSubEntry (startSubEntry (Entry.mk "Work" (some st) none none none) "" now1) "" now2 =
        Entry.mk "Work" none none
          (some [Entry.mk "Part 1" (some st) none none none,
                 Entry.mk "Part 2" (some (.str now1)) none none none,
                 Entry.mk "Part 3" (some (.str now2)) none none none]) none) := by
  constructor
  · intro n st en c now
    simp only [startSubEntry, List.length_singleton]
    rfl
  · intro st now1 now2
    simp only [startSubEntry, List.singleton_append, List.length_cons, List.length_nil,
      List.length_singleton]
    rfl

/-!  Lemmas about `removeEntry`: equations for the loop, one per case. -/

theorem loop_cons_none (n : String) (st en : Option TimeVal) (c : Option Bool)
    (es : List Entry) (t : Entry) :
    removeEntryLoop (Entry.mk n st en none c :: es) t =
      ((removeEntryLoop es t).1, Entry.mk n st en none c :: (removeEntryLoop es t).2) := rfl

theorem loop_cons_some_single (n : String) (st en : Option TimeVal) (c : Option Bool)
    (l0 es : List Entry) (t s : Entry) (h : removeEntryL l0 t = (true, [s])) :
    removeEntryLoop (Entry.mk n st en (some l0) c :: es) t =
      (true, Entry.mk n s.startTime s.endTime none c :: es) := by
  have h' : (if entryContainsL l0 t then (true, removeFirstL l0 t)
      else removeEntryLoop l0 t) = (true, [s]) := h
  simp only [removeEntryLoop, h']

theorem loop_cons_some_other (n : String) (st en : Option TimeVal) (c : Option Bool)
    (l0 es l' : List Entry) (t : Entry) (h : removeEntryL l0 t = (true, l'))
    (hne : ∀ x : Entry, l' ≠ [x]) :
    removeEntryLoop (Entry.mk n st en (some l0) c :: es) t =
      (true, Entry.mk n st en (some l') c :: es) := by
  have h' : (if entryContainsL l0 t then (true, removeFirstL l0 t)
      else removeEntryLoop l0 t) = (true, l') := h
  simp only [removeEntryLoop, h']

theorem loop_cons_some_fail (n : String) (st en : Option TimeVal) (c : Option Bool)
    (l0 es : List Entry) (t : Entry) (h : (removeEntryL l0 t).1 = false) :
    removeEntryLoop (Entry.mk n st en (some l0) c :: es) t =
      ((removeEntryLoop es t).1, Entry.mk n st en (some l0) c :: (removeEntryLoop es t).2) := by
  cases hr : removeEntryL l0 t with
  | mk b l' =>
    rw [hr] at h
    subst h
    have h' : (if entryContainsL l0 t then (true, removeFirstL l0 t)
        else removeEntryLoop l0 t) = (false, l') := hr
    simp only [removeEntryLoop, h']

theorem loop_cons_some_fst_true (n : String) (st en : Option TimeVal) (c : Option Bool)
    (l0 es : List Entry) (t : Entry) (h : (removeEntryL l0 t).1 = true) :
    (removeEntryLoop (Entry.mk n st en (some l0) c :: es) t).1 = true := by
  cases hr : removeEntryL l0 t with
  | mk b l' =>
    rw [hr] at h
    subst h
    match l' with
    | [] => rw [loop_cons_some_other n st en c l0 es [] t hr (by intro x hx; cases hx)]
    | [x] => rw [loop_cons_some_single n st en c l0 es t x hr]
    | x :: y :: ys =>
      rw [loop_cons_some_other n st en c l0 es (x :: y :: ys) t hr (by intro z hz; cases hz)]

theorem removeEntryLoop_append (pre : List Entry) (t : Entry)
    (h : removeEntryLoop pre t = (false, pre)) (l2 : List Entry) :
    removeEntryLoop (pre ++ l2) t =
      ((removeEntryLoop l2 t).1, pre ++ (removeEntryLoop l2 t).2) := by
  induction pre with
  | nil => simp
  | cons e pre ih =>
    cases e with
    | mk n st en sub c =>
      cases sub with
      | none =>
        rw [loop_cons_none] at h
        simp only [Prod.mk.injEq, List.cons.injEq, true_and] at h
        rw [List.cons_append, loop_cons_none, ih (Prod.ext h.1 h.2)]
        simp
      | some l0 =>
        cases hb : (removeEntryL l0 t).1 with
        | true =>
          exfalso
          have := loop_cons_some_fst_true n st en c l0 pre t hb
          rw [h] at this
          exact Bool.false_ne_true this
        | false =>
          rw [loop_cons_some_fail n st en c l0 pre t hb] at h
          simp only [Prod.mk.injEq, List.cons.injEq, true_and] at h
          rw [List.cons_append, loop_cons_some_fail n st en c l0 (pre ++ l2) t hb,
            ih (Prod.ext h.1 h.2)]
          simp

/-- Shared helper: a removal that leaves a parent container with exactly
one child flattens that parent — the parent keeps its own `name` and
`collapsed`, adopts the survivor\'s `startTime`/`endTime`, and drops
`subEntries` entirely. -/
theorem removeEntry_flatten_ctx (pre post : List Entry) (n : String)
    (st en : Option TimeVal) (c : Option Bool) (children : List Entry) (t s : Entry)
    (hcont : entryContainsL (pre ++ Entry.mk n st en (some children) c :: post) t = false)
    (hpre : removeEntryLoop pre t = (false, pre))
    (hrem : removeEntryL children t = (true, [s])) :
    removeEntryL (pre ++ Entry.mk n st en (some children) c :: post) t =
      (true, pre ++ Entry.mk n s.startTime s.endTime none c :: post) := by
  unfold removeEntryL
  rw [hcont]
  simp only [Bool.false_eq_true, if_false, removeEntryLoop_append pre t hpre,
    loop_cons_some_single n st en c children post t s hrem]


theorem removeFirstL_wf : ∀ (l : List Entry) (t : Entry),
    wfList l = true → wfList (removeFirstL l t) = true := by
  intro l t h
  induction l with
  | nil => simpa using h
  | cons e es ih =>
    simp only [wfList, Bool.and_eq_true] at h
    simp only [removeFirstL]
    by_cases hb : beqEntry e t = true
    · simp [hb, h.2]
    · simp only [hb, if_false, Bool.false_eq_true, wfList, Bool.and_eq_true]
      exact ⟨h.1, ih h.2⟩

theorem removeFirstL_len : ∀ (l : List Entry) (t : Entry),
    l.length ≤ (removeFirstL l t).length + 1 := by
  intro l t
  induction l with
  | nil => simp [removeFirstL]
  | cons e es ih =>
    simp only [removeFirstL]
    by_cases hb : beqEntry e t = true
    · simp [hb]
    · simp only [hb, Bool.false_eq_true, if_false, List.length_cons]
      omega

theorem removeEntryLoop_wf : (l : List Entry) → (t : Entry) → wfList l = true →
    wfList (removeEntryLoop l t).2 = true ∧ (removeEntryLoop l t).2.length = l.length
  | [], t, h => by simp [removeEntryLoop, wfList]
  | .mk n st en none c :: es, t, h => by
    simp only [wfList, Bool.and_eq_true] at h
    have ih := removeEntryLoop_wf es t h.2
    rw [loop_cons_none]
    refine ⟨?_, by simp [ih.2]⟩
    simp [wfList, h.1, ih.1]
  | .mk n st en (some l0) c :: es, t, h => by
    simp only [wfList, wfEntry, Bool.and_eq_true, decide_eq_true_eq] at h
    obtain ⟨⟨hlen0, hwf0⟩, hes⟩ := h
    by_cases hc : entryContainsL l0 t = true
    · have hR : removeEntryL l0 t = (true, removeFirstL l0 t) := by
        unfold removeEntryL; rw [hc]; simp
      have hwfR := removeFirstL_wf l0 t hwf0
      have hlenR := removeFirstL_len l0 t
      match hr : removeFirstL l0 t with
      | [] => rw [hr] at hlenR; simp at hlenR; omega
      | [x] =>
        rw [loop_cons_some_single n st en c l0 es t x (by rw [hR, hr])]
        refine ⟨?_, by simp⟩
        simp [wfList, wfEntry, hes]
      | x :: y :: ys =>
        rw [loop_cons_some_other n st en c l0 es (x :: y :: ys) t (by rw [hR, hr])
          (by intro z hz; simp at hz)]
        refine ⟨?_, by simp⟩
        rw [hr] at hwfR
        simp only [wfList, Bool.and_eq_true] at hwfR
        simp [wfList, wfEntry, hes, hwfR.1, hwfR.2.1, hwfR.2.2]
    · have hcf : entryContainsL l0 t = false := by simpa using hc
      have hR : removeEntryL l0 t = removeEntryLoop l0 t := by
        unfold removeEntryL; rw [hcf]; simp
      have ih0 := removeEntryLoop_wf l0 t hwf0
      cases hb : (removeEntryLoop l0 t).1 with
      | false =>
        have ihes := removeEntryLoop_wf es t hes
        rw [loop_cons_some_fail n st en c l0 es t (by rw [hR]; exact hb)]
        refine ⟨?_, by simp [ihes.2]⟩
        simp [wfList, wfEntry, hlen0, hwf0, ihes.1]
      | true =>
        have hne : ∀ z : Entry, (removeEntryLoop l0 t).2 ≠ [z] := by
          intro z hz
          rw [hz] at ih0
          have := ih0.2
          simp at this
          omega
        have hfull : removeEntryL l0 t = (true, (removeEntryLoop l0 t).2) := by
          rw [hR]
          exact Prod.ext hb rfl
        rw [loop_cons_some_other n st en c l0 es _ t hfull hne]
        refine ⟨?_, by simp⟩
        have hlen' : 2 ≤ (removeEntryLoop l0 t).2.length := by rw [ih0.2]; omega
        simp [wfList, wfEntry, hlen', ih0.1, hes]

theorem removeEntryL_wf (l : List Entry) (t : Entry) (h : wfList l = true) :
    wfList (removeEntryL l t).2 = true := by
  unfold removeEntryL
  by_cases hc : entryContainsL l t = true
  · rw [hc]
    simpa using removeFirstL_wf l t h
  · have hcf : entryContainsL l t = false := by simpa using hc
    rw [hcf]
    simpa using (removeEntryLoop_wf l t h).1

/-- C7: when a removal leaves a parent with exactly one surviving child and
that survivor is itself a container (non-empty `subEntries`), the flatten
step copies only the survivor's `startTime`/`endTime` onto the parent and
sets the parent's `subEntries` to `undefined` — the survivor's own
sub-entries (the grandchildren) are silently dropped from the tree. -/
theorem C7_flatten_discards_grandchildren :
    ∀ (n : String) (st en : Option TimeVal) (c : Option Bool) (children : List Entry)
      (t s : Entry) (gs : List Entry),
      s.subEntries = some gs → gs ≠ [] →
      entryContainsL [Entry.mk n st en (some children) c] t = false →
      removeEntryL children t = (true, [s]) →
      removeEntryL [Entry.mk n st en (some children) c] t =
        (true, [Entry.mk n s.startTime s.endTime none c]) := by
  intro n st en c children t s gs _ _ hcont hrem
  have h := removeEntry_flatten_ctx [] [] n st en c children t s (by simpa using hcont) rfl hrem
  simpa using h

/-- C7 (witness): removing the sibling of a two-grandchild container makes
the parent a leaf with the container's (null) times; the grandchildren are
gone. -/
theorem C7_witness :
    removeEntryL
        [Entry.mk "P" none none
          (some [Entry.mk "x" (some (.str "1")) (some (.str "2")) none none,
                 Entry.mk "S" none none
                   (some [Entry.mk "g1" (some (.str "3")) (some (.str "4")) none none,
                          Entry.mk "g2" (some (.str "5")) (some (.str "6")) none none]) none])
          none]
        (Entry.mk "x" (some (.str "1")) (some (.str "2")) none none) =
      (true, [Entry.mk "P" none none none none]) :=
  C7_flatten_discards_grandchildren "P" none none none
    [Entry.mk "x" (some (.str "1")) (some (.str "2")) none none,
     Entry.mk "S" none none
       (some [Entry.mk "g1" (some (.str "3")) (some (.str "4")) none none,
              Entry.mk "g2" (some (.str "5")) (some (.str "6")) none none]) none]
    (Entry.mk "x" (some (.str "1")) (some (.str "2")) none none)
    (Entry.mk "S" none none
      (some [Entry.mk "g1" (some (.str "3")) (some (.str "4")) none none,
             Entry.mk "g2" (some (.str "5")) (some (.str "6")) none none]) none)
    [Entry.mk "g1" (some (.str "3")) (some (.str "4")) none none,
     Entry.mk "g2" (some (.str "5")) (some (.str "6")) none none]
    rfl (by simp) rfl rfl

/-- C6 (counterexample): removing the only child of a one-child container
leaves that container with `subEntries = []` — a container with exactly
zero children — because the flatten step only fires when exactly one child
remains. -/
theorem C6_counterexample :
    (removeEntryL
        [Entry.mk "P" none none
          (some [Entry.mk "c" (some (.str "1")) (some (.str "2")) none none]) none]
        (Entry.mk "c" (some (.str "1")) (some (.str "2")) none none)).2 =
      [Entry.mk "P" none none (some []) none] ∧
    ∃ e ∈ (removeEntryL
        [Entry.mk "P" none none
          (some [Entry.mk "c" (some (.str "1")) (some (.str "2")) none none]) none]
        (Entry.mk "c" (some (.str "1")) (some (.str "2")) none none)).2,
      e.subEntries = some ([] : List Entry) := by
  refine ⟨rfl, ⟨Entry.mk "P" none none (some []) none, ?_, rfl⟩⟩
  show Entry.mk "P" none none (some []) none ∈ [Entry.mk "P" none none (some []) none]
  exact List.mem_singleton_self _

/-- C6 (amended): on trees satisfying the data-model invariant (every
container has at least two children), `removeEntry` never leaves a
container with zero or one child; and a removal that leaves a parent with
exactly one child flattens the parent, which adopts the survivor's
`startTime`/`endTime` and drops `subEntries`. -/
theorem C6_amended :
    (∀ (entries : List Entry) (t : Entry), wfList entries = true →
      wfList (removeEntryL entries t).2 = true) ∧
    (∀ (pre post : List Entry) (n : String) (st en : Option TimeVal) (c : Option Bool)
      (children : List Entry) (t s : Entry),
      entryContainsL (pre ++ Entry.mk n st en (some children) c :: post) t = false →
      removeEntryLoop pre t = (false, pre) →
      removeEntryL children t = (true, [s]) →
      removeEntryL (pre ++ Entry.mk n st en (some children) c :: post) t =
        (true, pre ++ Entry.mk n s.startTime s.endTime none c :: post)) :=
  ⟨removeEntryL_wf, removeEntry_flatten_ctx⟩

/-- C6 (witness): removing one child of a two-child container flattens it
onto the surviving leaf's times. -/
theorem C6_witness :
    removeEntryL
        [Entry.mk "P" none none
          (some [Entry.mk "a" (some (.str "1")) (some (.str "2")) none none,
                 Entry.mk "b" (some (.str "3")) (some (.str "4")) none none]) none]
        (Entry.mk "a" (some (.str "1")) (some (.str "2")) none none) =
      (true, [Entry.mk "P" (some (.str "3")) (some (.str "4")) none none]) := by
  have h := C6_amended.2 [] [] "P" none none none
    [Entry.mk "a" (some (.str "1")) (some (.str "2")) none none,
     Entry.mk "b" (some (.str "3")) (some (.str "4")) none none]
    (Entry.mk "a" (some (.str "1")) (some (.str "2")) none none)
    (Entry.mk "b" (some (.str "3")) (some (.str "4")) none none)
    rfl rfl rfl
  simpa using h

/-!  Lemmas: a converted ISO timestamp is never numeric again. -/

theorem mem_T_isoOfUnix (n : Int) : 'T' ∈ (isoOfUnix n).data := by
  simp [isoOfUnix, String.data_append]

theorem mem_dropWhile_of_not {c : Char} {p : Char → Bool} :
    ∀ l : List Char, c ∈ l → p c = false → c ∈ l.dropWhile p := by
  intro l hm hp
  induction l with
  | nil => cases hm
  | cons a t ih =>
    by_cases ha : p a = true
    · rw [List.dropWhile_cons_of_pos ha]
      rcases List.mem_cons.mp hm with h | h
      · subst h; rw [hp] at ha; cases ha
      · exact ih h
    · rw [List.dropWhile_cons_of_neg ha]
      exact hm

theorem jsToNumber?_of_mem_T (s : String) (h : 'T' ∈ s.data) : jsToNumber? s = none := by
  unfold jsToNumber?
  have h1 : 'T' ∈ ((s.data.dropWhile isJsSpace).reverse.dropWhile isJsSpace).reverse := by
    rw [List.mem_reverse]
    apply mem_dropWhile_of_not
    · rw [List.mem_reverse]
      exact mem_dropWhile_of_not _ h (by decide)
    · decide
  generalize hcs :
    ((s.data.dropWhile isJsSpace).reverse.dropWhile isJsSpace).reverse = cs at h1 ⊢
  dsimp only
  have hdig : ∀ rest : List Char, 'T' ∈ rest → rest.all Char.isDigit = false := by
    intro rest hr
    by_contra hall
    have : rest.all Char.isDigit = true := by
      cases hv : rest.all Char.isDigit
      · exact absurd hv hall
      · rfl
    have := List.all_eq_true.mp this 'T' hr
    simp at this
  split
  · cases h1
  · next rest =>
    have hr : 'T' ∈ rest := by
      rcases List.mem_cons.mp h1 with h' | h'
      · exact absurd h' (by decide)
      · exact h'
    simp [hdig rest hr]
  · next rest =>
    have hr : 'T' ∈ rest := by
      rcases List.mem_cons.mp h1 with h' | h'
      · exact absurd h' (by decide)
      · exact h'
    simp [hdig rest hr]
  · simp [hdig _ h1]

theorem isoOfUnix_ne_empty (n : Int) : (isoOfUnix n == "") = false := by
  have h := mem_T_isoOfUnix n
  cases he : isoOfUnix n with
  | mk data =>
    rw [he] at h
    cases data with
    | nil => cases h
    | cons a t => rfl

theorem migrateTime_idem (t : Option TimeVal) : migrateTime (migrateTime t) = migrateTime t := by
  cases t with
  | none => rfl
  | some v =>
    by_cases ht : truthyTime (some v) = true
    · cases hn : toNumberOfTimeVal v with
      | some n =>
        have h1 : migrateTime (some v) = some (.str (isoOfUnix n)) := by
          simp [migrateTime, ht, hn]
        rw [h1]
        have htr : truthyTime (some (TimeVal.str (isoOfUnix n))) = true := by
          simp [truthyTime, isoOfUnix_ne_empty]
        have hnum : toNumberOfTimeVal (TimeVal.str (isoOfUnix n)) = none :=
          jsToNumber?_of_mem_T _ (mem_T_isoOfUnix n)
        simp [migrateTime, htr, hnum]
      | none =>
        have h1 : migrateTime (some v) = some v := by simp [migrateTime, ht, hn]
        rw [h1, h1]
    · have hf : truthyTime (some v) = false := by simpa using ht
      have h1 : migrateTime (some v) = some v := by simp [migrateTime, hf]
      rw [h1, h1]

mutual

theorem migrateEntry_idem : (e : Entry) → migrateEntry (migrateEntry e) = migrateEntry e
  | .mk n st en sub c => by
    cases sub with
    | none => simp [migrateEntry, migrateTime_idem]
    | some l =>
      cases l with
      | nil => simp [migrateEntry, migrateTime_idem]
      | cons e0 es0 =>
        have hl := migrateList_idem (e0 :: es0)
        simp only [migrateEntry, migrateList, migrateTime_idem]
        simp only [migrateList] at hl
        simp [hl]

theorem migrateList_idem : (l : List Entry) → migrateList (migrateList l) = migrateList l
  | [] => rfl
  | e :: es => by
    simp only [migrateList, migrateEntry_idem e, migrateList_idem es]

end

/-- C5: legacy migration (`updateLegacyInfo`) is idempotent — converting
truthy numeric timestamps to ISO strings and normalising `null`/empty
`subEntries` to absent reaches a fixed point after one pass. -/
theorem C5_migration_idempotent :
    ∀ l : List Entry, migrateList (migrateList l) = migrateList l :=
  migrateList_idem

/-- C9: `loadTracker` is total, and on any `JSON.parse` failure it returns
the empty tracker `{entries: []}` instead of propagating the exception (the
`try`/`catch` merely logs it). -/
theorem C9_decode_failure (json : String) (h : parseJson json = none) :
    loadTracker json = { entries := [] } := by
  unfold loadTracker
  by_cases he : (json == "") = true
  · rw [if_pos he]
  · rw [if_neg he]
    simp [decodeTrackerE, h]

/-- C9 (witness): a malformed payload degrades to the empty tracker. -/
theorem C9_witness :
    parseJson "\x7boops" = none ∧ loadTracker "\x7boops" = { entries := [] } :=
  ⟨rfl, C9_decode_failure "\x7boops" rfl⟩

/-!  The serializer's string escaping is inverted exactly by the parser. -/

theorem hexVal?_hexDigitChar (n : Nat) (h : n < 16) : hexVal? (hexDigitChar n) = some n := by
  interval_cases n <;> rfl

theorem string_mk_data (s : String) : String.mk s.data = s := rfl

theorem parseStr_round : ∀ (l rest : List Char),
    parseStrChars ((l.map escapeChar).flatten ++ '"' :: rest) = some (l, rest) := by
  have stepBS : ∀ X : List Char, parseStrChars ('\\' :: X) = parseEscape X := fun _ => rfl
  have stepQ : ∀ X : List Char, parseStrChars ('"' :: X) = some ([], X) := fun _ => rfl
  have eQ : ∀ X : List Char,
    parseEscape ('"' :: X) = (parseStrChars X).map (fun p => ('"' :: p.1, p.2)) := fun _ => rfl
  have eBS : ∀ X : List Char,
    parseEscape ('\\' :: X) = (parseStrChars X).map (fun p => ('\\' :: p.1, p.2)) := fun _ => rfl
  have eN : ∀ X : List Char,
    parseEscape ('n' :: X) = (parseStrChars X).map (fun p => ('\n' :: p.1, p.2)) := fun _ => rfl
  have eR : ∀ X : List Char,
    parseEscape ('r' :: X) = (parseStrChars X).map (fun p => ('\r' :: p.1, p.2)) := fun _ => rfl
  have eT : ∀ X : List Char,
    parseEscape ('t' :: X) = (parseStrChars X).map (fun p => ('\t' :: p.1, p.2)) := fun _ => rfl
  have eB : ∀ X : List Char,
    parseEscape ('b' :: X) = (parseStrChars X).map (fun p => ('\x08' :: p.1, p.2)) := fun _ => rfl
  have eF : ∀ X : List Char,
    parseEscape ('f' :: X) = (parseStrChars X).map (fun p => ('\x0c' :: p.1, p.2)) := fun _ => rfl
  have eU : ∀ X : List Char, parseEscape ('u' :: X) = parseUnicode X := fun _ => rfl
  have h0 : hexVal? '0' = some 0 := rfl
  intro l
  induction l with
  | nil => intro rest; exact stepQ rest
  | cons c t ih =>
    intro rest
    simp only [List.map_cons, List.flatten_cons, List.append_assoc]
    by_cases h1 : c = '"'
    · subst h1
      rw [show escapeChar '"' = ['\\', '"'] from rfl]
      simp only [List.cons_append, List.nil_append]
      rw [stepBS, eQ, ih rest]
      rfl
    · by_cases h2 : c = '\\'
      · subst h2
        rw [show escapeChar '\\' = ['\\', '\\'] from rfl]
        simp only [List.cons_append, List.nil_append]
        rw [stepBS, eBS, ih rest]
        rfl
      · by_cases h3 : c = '\n'
        · subst h3
          rw [show escapeChar '\n' = ['\\', 'n'] from rfl]
          simp only [List.cons_append, List.nil_append]
          rw [stepBS, eN, ih rest]
          rfl
        · by_cases h4 : c = '\r'
          · subst h4
            rw [show escapeChar '\r' = ['\\', 'r'] from rfl]
            simp only [List.cons_append, List.nil_append]
            rw [stepBS, eR, ih rest]
            rfl
          · by_cases h5 : c = '\t'
            · subst h5
              rw [show escapeChar '\t' = ['\\', 't'] from rfl]
              simp only [List.cons_append, List.nil_append]
              rw [stepBS, eT, ih rest]
              rfl
            · by_cases h6 : c = '\x08'
              · subst h6
                rw [show escapeChar '\x08' = ['\\', 'b'] from rfl]
                simp only [List.cons_append, List.nil_append]
                rw [stepBS, eB, ih rest]
                rfl
              · by_cases h7 : c = '\x0c'
                · subst h7
                  rw [show escapeChar '\x0c' = ['\\', 'f'] from rfl]
                  simp only [List.cons_append, List.nil_append]
                  rw [stepBS, eF, ih rest]
                  rfl
                · by_cases h8 : c.toNat < 32
                  · have ha := hexVal?_hexDigitChar (c.toNat / 16) (by omega)
                    have hb := hexVal?_hexDigitChar (c.toNat % 16) (by omega)
                    rw [show escapeChar c =
                        ['\\', 'u', '0', '0', hexDigitChar (c.toNat / 16),
                          hexDigitChar (c.toNat % 16)] from by
                      simp only [escapeChar, if_neg h1, if_neg h2, if_neg h3, if_neg h4,
                        if_neg h5, if_neg h6, if_neg h7, if_pos h8]]
                    simp only [List.cons_append, List.nil_append]
                    rw [stepBS, eU]
                    simp only [parseUnicode]
                    have hx : hex4? '0' '0' (hexDigitChar (c.toNat / 16))
                        (hexDigitChar (c.toNat % 16)) = some c.toNat := by
                      simp only [hex4?, h0, ha, hb, Option.bind_eq_bind, Option.some_bind,
                        Option.pure_def]
                      congr 1
                      omega
                    rw [hx]
                    dsimp only
                    have hrange : c.toNat < 0xd800 ∨ 0xe000 ≤ c.toNat := Or.inl (by omega)
                    rw [if_pos hrange, ih rest]
                    simp [Char.ofNat_toNat]
                  · rw [show escapeChar c = [c] from by
                      simp only [escapeChar, if_neg h1, if_neg h2, if_neg h3, if_neg h4,
                        if_neg h5, if_neg h6, if_neg h7, if_neg h8]]
                    simp only [List.cons_append, List.nil_append]
                    simp only [parseStrChars, if_neg h1, if_neg h2, if_neg h8]
                    rw [ih rest]
                    rfl


theorem skipWs_cons (c : Char) (l : List Char) (h : isJsonWs c = false) :
    skipWs (c :: l) = c :: l := by
  simp [skipWs, List.dropWhile_cons, h]

theorem encodeStrL_append (l X : List Char) :
    encodeStrL l ++ X = '"' :: ((l.map escapeChar).flatten ++ '"' :: X) := by
  simp [encodeStrL]

theorem serVL_shape (j : Json) (h : numFreeV j = true) :
    ∃ c cs, serVL j = c :: cs ∧ isJsonWs c = false ∧ c ≠ ']' := by
  cases j with
  | null => exact ⟨'n', _, rfl, by decide, by decide⟩
  | bool b => cases b with
    | true => exact ⟨'t', _, rfl, by decide, by decide⟩
    | false => exact ⟨'f', _, rfl, by decide, by decide⟩
  | num n => simp [numFreeV] at h
  | str s =>
    exact ⟨'"', (s.data.map escapeChar).flatten ++ ['"'], rfl, by decide, by decide⟩
  | arr l => exact ⟨'[', serEL l ++ [']'], rfl, by decide, by decide⟩
  | obj fs => exact ⟨'{', serML fs ++ ['}'], rfl, by decide, by decide⟩

theorem serEL_cons_decomp (v : Json) (vs : List Json) :
    ∃ tail, serEL (v :: vs) = serVL v ++ tail := by
  cases vs with
  | nil => exact ⟨[], by simp [serEL]⟩
  | cons w t => exact ⟨',' :: serEL (w :: t), by simp [serEL]⟩

theorem pvNull (f : Nat) (rest : List Char) :
    parseValue (f + 1) ('n' :: 'u' :: 'l' :: 'l' :: rest) = some (.null, rest) := rfl

theorem pvTrue (f : Nat) (rest : List Char) :
    parseValue (f + 1) ('t' :: 'r' :: 'u' :: 'e' :: rest) = some (.bool true, rest) := rfl

theorem pvFalse (f : Nat) (rest : List Char) :
    parseValue (f + 1) ('f' :: 'a' :: 'l' :: 's' :: 'e' :: rest) = some (.bool false, rest) := rfl

theorem pvStr (f : Nat) (rest : List Char) :
    parseValue (f + 1) ('"' :: rest) =
      (parseStrChars rest).map (fun p => (.str ⟨p.1⟩, p.2)) := rfl

theorem pvArr (f : Nat) (rest : List Char) :
    parseValue (f + 1) ('[' :: rest) =
      (if (skipWs rest).head? = some ']' then some (.arr [], (skipWs rest).tail)
       else (parseElems f (skipWs rest)).map (fun p => (.arr p.1, p.2))) := rfl

theorem pvObj (f : Nat) (rest : List Char) :
    parseValue (f + 1) ('{' :: rest) =
      (if (skipWs rest).head? = some '}' then some (.obj [], (skipWs rest).tail)
       else (parseMembers f (skipWs rest)).map (fun p => (.obj p.1, p.2))) := rfl

theorem serML_cons_decomp (k : String) (v : Json) (fs : List (String × Json)) :
    ∃ tail, serML ((k, v) :: fs) = encodeStrL k.data ++ ':' :: serVL v ++ tail := by
  cases fs with
  | nil => exact ⟨[], by simp [serML]⟩
  | cons f t => exact ⟨',' :: serML (f :: t), by simp [serML]⟩

mutual

theorem parse_ser_v : (j : Json) → numFreeV j = true → (fuel : Nat) → (rest : List Char) →
    fuelNeedV j ≤ fuel → parseValue fuel (serVL j ++ rest) = some (j, rest)
  | .null, _, 0, _, hf => by simp [fuelNeedV] at hf
  | .null, _, fuel + 1, rest, _ => pvNull fuel rest
  | .bool true, _, 0, _, hf => by simp [fuelNeedV] at hf
  | .bool true, _, fuel + 1, rest, _ => pvTrue fuel rest
  | .bool false, _, 0, _, hf => by simp [fuelNeedV] at hf
  | .bool false, _, fuel + 1, rest, _ => pvFalse fuel rest
  | .num n, h, _, _, _ => by simp [numFreeV] at h
  | .str s, _, 0, _, hf => by simp [fuelNeedV] at hf
  | .str s, _, fuel + 1, rest, _ => by
    rw [show serVL (.str s) ++ rest =
        '"' :: ((s.data.map escapeChar).flatten ++ '"' :: rest) from encodeStrL_append s.data rest]
    rw [pvStr, parseStr_round]
    rfl
  | .arr [], _, 0, _, hf => by simp [fuelNeedV] at hf
  | .arr [], _, fuel + 1, rest, _ => rfl
  | .arr (v :: vs), h, 0, _, hf => by simp [fuelNeedV] at hf
  | .arr (v :: vs), h, fuel + 1, rest, hf => by
    have hnf : numFreeV v = true ∧ numFreeE vs = true := by
      simpa [numFreeV, numFreeE, Bool.and_eq_true] using h
    obtain ⟨tail, htail⟩ := serEL_cons_decomp v vs
    obtain ⟨c, cs, hc, hws, hrb⟩ := serVL_shape v hnf.1
    have hdec : serEL (v :: vs) ++ ']' :: rest = c :: (cs ++ tail ++ ']' :: rest) := by
      rw [htail, hc]; simp
    have hfe : fuelNeedE (v :: vs) ≤ fuel := by
      have h1 : fuelNeedV (.arr (v :: vs)) = 1 + fuelNeedE (v :: vs) := rfl
      omega
    rw [show serVL (.arr (v :: vs)) ++ rest = '[' :: (serEL (v :: vs) ++ ']' :: rest) from by
      show ('[' :: (serEL (v :: vs) ++ [']'])) ++ rest = _
      simp]
    rw [pvArr, hdec, skipWs_cons c _ hws]
    rw [if_neg (by simp [hrb])]
    rw [← hdec, parse_ser_e (v :: vs) (by simp [numFreeE, hnf.1, hnf.2]) fuel rest hfe (by simp)]
    rfl
  | .obj [], _, 0, _, hf => by simp [fuelNeedV] at hf
  | .obj [], _, fuel + 1, rest, _ => rfl
  | .obj (f0 :: fs), h, 0, _, hf => by simp [fuelNeedV] at hf
  | .obj (f0 :: fs), h, fuel + 1, rest, hf => by
    obtain ⟨k, v⟩ := f0
    obtain ⟨tail, htail⟩ := serML_cons_decomp k v fs
    have hdec : serML ((k, v) :: fs) ++ '}' :: rest =
        '"' :: ((k.data.map escapeChar).flatten ++ '"' :: (':' :: serVL v ++ tail ++ '}' :: rest)) := by
      rw [htail]
      rw [show (encodeStrL k.data ++ ':' :: serVL v ++ tail) ++ '}' :: rest =
          encodeStrL k.data ++ (':' :: serVL v ++ tail ++ '}' :: rest) from by simp]
      rw [encodeStrL_append]
    have hfm : fuelNeedM ((k, v) :: fs) ≤ fuel := by
      have h1 : fuelNeedV (.obj ((k, v) :: fs)) = 1 + fuelNeedM ((k, v) :: fs) := rfl
      omega
    rw [show serVL (.obj ((k, v) :: fs)) ++ rest = '{' :: (serML ((k, v) :: fs) ++ '}' :: rest) from by
      show ('{' :: (serML ((k, v) :: fs) ++ ['}'])) ++ rest = _
      simp]
    rw [pvObj, hdec, skipWs_cons '"' _ (by decide)]
    rw [if_neg (by simp)]
    rw [← hdec, parse_ser_m ((k, v) :: fs) h fuel rest hfm (by simp)]
    rfl

theorem parse_ser_e : (l : List Json) → numFreeE l = true → (fuel : Nat) → (rest : List Char) →
    fuelNeedE l ≤ fuel → l ≠ [] →
    parseElems fuel (serEL l ++ ']' :: rest) = some (l, rest)
  | [], _, _, _, _, hne => absurd rfl hne
  | [v], hnf, 0, _, hf, _ => by simp [fuelNeedE] at hf
  | [v], hnf, fuel + 1, rest, hf, _ => by
    have hnfv : numFreeV v = true := by simpa [numFreeE, Bool.and_eq_true] using hnf
    have hfv : fuelNeedV v ≤ fuel := by
      simp only [fuelNeedE, Nat.max_zero] at hf
      omega
    simp only [parseElems]
    rw [show serEL [v] = serVL v from rfl, parse_ser_v v hnfv fuel (']' :: rest) hfv]
    rfl
  | v :: w :: t, hnf, 0, _, hf, _ => by simp [fuelNeedE] at hf
  | v :: w :: t, hnf, fuel + 1, rest, hf, _ => by
    have hnfv : numFreeV v = true ∧ numFreeE (w :: t) = true := by
      simpa [numFreeE, Bool.and_eq_true] using hnf
    have hfb : fuelNeedV v ≤ fuel ∧ fuelNeedE (w :: t) ≤ fuel := by
      simp only [fuelNeedE] at hf ⊢
      have := Nat.max_le.mp (by omega : max (fuelNeedV v) (1 + max (fuelNeedV w) (fuelNeedE t)) ≤ fuel)
      exact ⟨this.1, this.2⟩
    simp only [parseElems]
    rw [show serEL (v :: w :: t) ++ ']' :: rest =
        serVL v ++ (',' :: (serEL (w :: t) ++ ']' :: rest)) from by
      show (serVL v ++ ',' :: serEL (w :: t)) ++ ']' :: rest = _
      simp]
    rw [parse_ser_v v hnfv.1 fuel _ hfb.1]
    have hrec := parse_ser_e (w :: t) hnfv.2 fuel rest hfb.2 (by simp)
    simp [skipWs, isJsonWs, hrec]

theorem parse_ser_m : (fs : List (String × Json)) → numFreeV (.obj fs) = true → (fuel : Nat) →
    (rest : List Char) → fuelNeedM fs ≤ fuel → fs ≠ [] →
    parseMembers fuel (serML fs ++ '}' :: rest) = some (fs, rest)
  | [], _, _, _, _, hne => absurd rfl hne
  | [(k, v)], hnf, 0, _, hf, _ => by simp [fuelNeedM] at hf
  | [(k, v)], hnf, fuel + 1, rest, hf, _ => by
    have hnfv : numFreeV v = true := by
      simpa [numFreeV, numFreeM, Bool.and_eq_true] using hnf
    have hfv : fuelNeedV v ≤ fuel := by
      simp only [fuelNeedM, Nat.max_zero] at hf
      omega
    have hdec : serML [(k, v)] ++ '}' :: rest =
        '"' :: ((k.data.map escapeChar).flatten ++ '"' :: (':' :: (serVL v ++ '}' :: rest))) := by
      show (encodeStrL k.data ++ ':' :: serVL v) ++ '}' :: rest = _
      rw [show (encodeStrL k.data ++ ':' :: serVL v) ++ '}' :: rest =
          encodeStrL k.data ++ (':' :: (serVL v ++ '}' :: rest)) from by simp]
      rw [encodeStrL_append]
    rw [hdec]
    have hsr := parseStr_round k.data (':' :: (serVL v ++ '}' :: rest))
    have hv := parse_ser_v v hnfv fuel ('}' :: rest) hfv
    simp [parseMembers, skipWs, isJsonWs, hsr, hv, string_mk_data]
  | (k, v) :: f2 :: t, hnf, 0, _, hf, _ => by simp [fuelNeedM] at hf
  | (k, v) :: f2 :: t, hnf, fuel + 1, rest, hf, _ => by
    have hnfv : numFreeV v = true ∧ numFreeM (f2 :: t) = true := by
      simpa [numFreeV, numFreeM, Bool.and_eq_true] using hnf
    have hfb : fuelNeedV v ≤ fuel ∧ fuelNeedM (f2 :: t) ≤ fuel := by
      have h1 : fuelNeedM ((k, v) :: f2 :: t) = 1 + max (fuelNeedV v) (fuelNeedM (f2 :: t)) := rfl
      exact Nat.max_le.mp (by omega)
    have hdec : serML ((k, v) :: f2 :: t) ++ '}' :: rest =
        '"' :: ((k.data.map escapeChar).flatten ++
          '"' :: (':' :: (serVL v ++ ',' :: (serML (f2 :: t) ++ '}' :: rest)))) := by
      show (encodeStrL k.data ++ ':' :: serVL v ++ ',' :: serML (f2 :: t)) ++ '}' :: rest = _
      rw [show (encodeStrL k.data ++ ':' :: serVL v ++ ',' :: serML (f2 :: t)) ++ '}' :: rest =
          encodeStrL k.data ++ (':' :: (serVL v ++ ',' :: (serML (f2 :: t) ++ '}' :: rest)))
        from by simp]
      rw [encodeStrL_append]
    rw [hdec]
    have hsr := parseStr_round k.data
      (':' :: (serVL v ++ ',' :: (serML (f2 :: t) ++ '}' :: rest)))
    have hv := parse_ser_v v hnfv.1 fuel (',' :: (serML (f2 :: t) ++ '}' :: rest)) hfb.1
    have hrec := parse_ser_m (f2 :: t) (by simpa [numFreeV] using hnfv.2) fuel rest hfb.2 (by simp)
    simp [parseMembers, skipWs, isJsonWs, hsr, hv, hrec, string_mk_data]

end

mutual

theorem fuelNeedV_le_len : (j : Json) → numFreeV j = true → fuelNeedV j ≤ (serVL j).length
  | .null, _ => by simp [fuelNeedV, serVL]
  | .bool true, _ => by simp [fuelNeedV, serVL]
  | .bool false, _ => by simp [fuelNeedV, serVL]
  | .num n, h => by simp [numFreeV] at h
  | .str s, _ => by
    show 1 ≤ ('"' :: ((s.data.map escapeChar).flatten ++ ['"'])).length
    simp
  | .arr l, h => by
    have he := fuelNeedE_le_len l (by simpa [numFreeV] using h)
    show 1 + fuelNeedE l ≤ ('[' :: (serEL l ++ [']'])).length
    simp only [List.length_cons, List.length_append, List.length_singleton]
    omega
  | .obj fs, h => by
    have hm := fuelNeedM_le_len fs (by simpa [numFreeV] using h)
    show 1 + fuelNeedM fs ≤ ('{' :: (serML fs ++ ['}'])).length
    simp only [List.length_cons, List.length_append, List.length_singleton]
    omega

theorem fuelNeedE_le_len : (l : List Json) → numFreeE l = true →
    fuelNeedE l ≤ (serEL l).length + 1
  | [], _ => by simp [fuelNeedE]
  | [v], h => by
    have hv := fuelNeedV_le_len v (by simpa [numFreeE, Bool.and_eq_true] using h)
    show 1 + max (fuelNeedV v) (fuelNeedE []) ≤ (serVL v).length + 1
    simp only [fuelNeedE, Nat.max_zero]
    omega
  | v :: w :: t, h => by
    have h1 : numFreeV v = true ∧ numFreeE (w :: t) = true := by
      simpa [numFreeE, Bool.and_eq_true] using h
    have hv := fuelNeedV_le_len v h1.1
    have he := fuelNeedE_le_len (w :: t) h1.2
    show 1 + max (fuelNeedV v) (fuelNeedE (w :: t)) ≤
      (serVL v ++ ',' :: serEL (w :: t)).length + 1
    simp only [List.length_append, List.length_cons]
    have hmax : max (fuelNeedV v) (fuelNeedE (w :: t)) ≤
        (serVL v).length + ((serEL (w :: t)).length + 1) :=
      max_le (le_trans hv (Nat.le_add_right _ _)) (le_trans he (Nat.le_add_left _ _))
    omega

theorem fuelNeedM_le_len : (fs : List (String × Json)) → numFreeM fs = true →
    fuelNeedM fs ≤ (serML fs).length + 1
  | [], _ => by simp [fuelNeedM]
  | [(k, v)], h => by
    have hv := fuelNeedV_le_len v (by simpa [numFreeM, Bool.and_eq_true] using h)
    show 1 + max (fuelNeedV v) (fuelNeedM []) ≤
      (encodeStrL k.data ++ ':' :: serVL v).length + 1
    simp only [fuelNeedM, Nat.max_zero, List.length_append, List.length_cons]
    omega
  | (k, v) :: f2 :: t, h => by
    have h1 : numFreeV v = true ∧ numFreeM (f2 :: t) = true := by
      simpa [numFreeM, Bool.and_eq_true] using h
    have hv := fuelNeedV_le_len v h1.1
    have hm := fuelNeedM_le_len (f2 :: t) h1.2
    show 1 + max (fuelNeedV v) (fuelNeedM (f2 :: t)) ≤
      (encodeStrL k.data ++ ':' :: serVL v ++ ',' :: serML (f2 :: t)).length + 1
    simp only [List.length_append, List.length_cons]
    have hmax : max (fuelNeedV v) (fuelNeedM (f2 :: t)) ≤
        (serVL v).length + ((serML (f2 :: t)).length + 1) :=
      max_le (le_trans hv (Nat.le_add_right _ _)) (le_trans hm (Nat.le_add_left _ _))
    omega

end

theorem parseJson_serializeJson (j : Json) (h : numFreeV j = true) :
    parseJson (serializeJson j) = some j := by
  unfold parseJson serializeJson
  have hlen : fuelNeedV j ≤ (String.mk (serVL j)).data.length + 1 := by
    have := fuelNeedV_le_len j h
    simpa using Nat.le_succ_of_le this
  have hp := parse_ser_v j h ((String.mk (serVL j)).data.length + 1) [] hlen
  rw [List.append_nil] at hp
  rw [show (String.mk (serVL j)).data = serVL j from rfl] at hp ⊢
  rw [hp]
  rfl

theorem timeFromJson_toJson : (t : Option TimeVal) → timeFromJson (timeToJson t) = .ok t
  | none => rfl
  | some (.str s) => rfl
  | some (.num n) => rfl

mutual

theorem entryFromJson_toJson : (e : Entry) → entryFromJson (entryToJson e) = .ok e
  | .mk n st en none none => by
    simp [entryToJson, entryFromJson, lookupField, subEntriesFromFields, timeFromJson_toJson,
      Except.bind]
    rfl
  | .mk n st en none (some b) => by
    simp [entryToJson, entryFromJson, lookupField, subEntriesFromFields, timeFromJson_toJson,
      Except.bind]
    rfl
  | .mk n st en (some l) none => by
    have ih := entryListFromJson_toJson l
    simp [entryToJson, entryFromJson, lookupField, subEntriesFromFields, timeFromJson_toJson,
      Except.bind, ih]
    rfl
  | .mk n st en (some l) (some b) => by
    have ih := entryListFromJson_toJson l
    simp [entryToJson, entryFromJson, lookupField, subEntriesFromFields, timeFromJson_toJson,
      Except.bind, ih]
    rfl

theorem entryListFromJson_toJson : (l : List Entry) → entryListFromJson (entryListToJson l) = .ok l
  | [] => rfl
  | e :: es => by
    have ih1 := entryFromJson_toJson e
    have ih2 := entryListFromJson_toJson es
    simp [entryListToJson, entryListFromJson, ih1, ih2, Except.bind]
    rfl

end

theorem trackerFromJson_toJson (t : Tracker) : trackerFromJson (trackerToJson t) = .ok t := by
  obtain ⟨es, tt⟩ := t
  cases tt with
  | none =>
    simp [trackerToJson, trackerFromJson, lookupField, entryListFromJson_toJson es, Except.bind]
    rfl
  | some s =>
    simp [trackerToJson, trackerFromJson, lookupField, entryListFromJson_toJson es, Except.bind]
    rfl


theorem migrateTime_canonical (t : Option TimeVal) (h : canonicalTime t = true) :
    migrateTime t = t := by
  cases t with
  | none => rfl
  | some v =>
    cases v with
    | num n => simp [canonicalTime] at h
    | str s =>
      have hn : jsToNumber? s = none := by
        simpa [canonicalTime, Option.isNone_iff_eq_none] using h
      simp [migrateTime, toNumberOfTimeVal, hn]

theorem canonicalList_parts (e : Entry) (es : List Entry)
    (h : canonicalList (e :: es) = true) :
    canonicalEntry e = true ∧ canonicalList es = true := by
  simp only [canonicalList, Bool.and_eq_true] at h
  exact h

mutual

theorem migrateEntry_canonical : (e : Entry) → canonicalEntry e = true → migrateEntry e = e
  | .mk n st en sub c => by
    intro h
    cases sub with
    | none =>
      simp only [canonicalEntry, Bool.and_eq_true] at h
      simp [migrateEntry, migrateTime_canonical _ h.1, migrateTime_canonical _ h.2]
    | some l =>
      cases l with
      | nil => simp [canonicalEntry] at h
      | cons e0 es0 =>
        simp only [canonicalEntry, Bool.and_eq_true] at h
        have ih := migrateList_canonical (e0 :: es0) h.2
        simp [migrateEntry, migrateTime_canonical _ h.1.1, migrateTime_canonical _ h.1.2, ih]

theorem migrateList_canonical : (l : List Entry) → canonicalList l = true → migrateList l = l
  | [] => fun _ => rfl
  | e :: es => by
    intro h
    obtain ⟨h1, h2⟩ := canonicalList_parts e es h
    simp [migrateList, migrateEntry_canonical e h1, migrateList_canonical es h2]

end

theorem numFree_timeToJson (t : Option TimeVal) (h : canonicalTime t = true) :
    numFreeV (timeToJson t) = true := by
  cases t with
  | none => rfl
  | some v =>
    cases v with
    | num n => simp [canonicalTime] at h
    | str s => rfl

mutual

theorem numFree_entryToJson : (e : Entry) → canonicalEntry e = true →
    numFreeV (entryToJson e) = true
  | .mk n st en sub c => by
    intro h
    cases sub with
    | none =>
      simp only [canonicalEntry, Bool.and_eq_true] at h
      cases c <;>
        simp [entryToJson, numFreeV, numFreeM, numFree_timeToJson _ h.1,
          numFree_timeToJson _ h.2]
    | some l =>
      cases l with
      | nil => simp [canonicalEntry] at h
      | cons e0 es0 =>
        simp only [canonicalEntry, Bool.and_eq_true] at h
        have ih := numFree_entryListToJson (e0 :: es0) h.2
        simp only [entryListToJson, numFreeE, Bool.and_eq_true] at ih
        cases c <;>
          simp [entryToJson, numFreeV, numFreeM, numFreeE, numFree_timeToJson _ h.1.1,
            numFree_timeToJson _ h.1.2, ih.1, ih.2]

theorem numFree_entryListToJson : (l : List Entry) → canonicalList l = true →
    numFreeE (entryListToJson l) = true
  | [] => fun _ => rfl
  | e :: es => by
    intro h
    obtain ⟨h1, h2⟩ := canonicalList_parts e es h
    simp [entryListToJson, numFreeE, numFree_entryToJson e h1,
      numFree_entryListToJson es h2]

end

theorem numFree_trackerToJson (t : Tracker) (h : canonicalList t.entries = true) :
    numFreeV (trackerToJson t) = true := by
  obtain ⟨es, tt⟩ := t
  cases tt <;>
    simp [trackerToJson, numFreeV, numFreeM, numFreeE,
      numFree_entryListToJson es (by simpa using h)]

/-- C4: the tracker codec round-trips — for every canonical tracker (string
timestamps that do not re-parse as numbers, no present-but-empty
`subEntries`), `loadTracker (JSON.stringify t)` returns `t`, and in
particular legacy migration is a no-op on such canonical data. -/
theorem C4_roundtrip : ∀ t : Tracker, canonicalList t.entries = true →
    loadTracker (encodeTracker t) = t ∧ migrateList t.entries = t.entries := by
  intro t h
  have hm := migrateList_canonical t.entries h
  refine ⟨?_, hm⟩
  unfold loadTracker
  have hne : (encodeTracker t == "") = false := by
    apply beq_eq_false_iff_ne.mpr
    intro heq
    have hd := congrArg String.data heq
    rw [show (encodeTracker t).data = '{' ::
        (serML (("entries", Json.arr (entryListToJson t.entries)) ::
          (match t.targetTime with
           | none => []
           | some s => [("targetTime", Json.str s)])) ++ ['}']) from rfl] at hd
    simp at hd
  rw [hne]
  simp only [Bool.false_eq_true, if_false]
  unfold decodeTrackerE
  rw [show encodeTracker t = serializeJson (trackerToJson t) from rfl]
  rw [parseJson_serializeJson _ (numFree_trackerToJson t h)]
  dsimp only
  rw [trackerFromJson_toJson]
  dsimp only
  rw [hm]


/-- C4 (witness): a nested canonical tracker survives encode then decode. -/
theorem C4_witness :
    canonicalList sampleTracker.entries = true ∧
      loadTracker (encodeTracker sampleTracker) = sampleTracker :=
  ⟨rfl, (C4_roundtrip sampleTracker rfl).1⟩


mutual

theorem stopRunningL_isSome (now : String) : (l : List Entry) →
    (stopRunningL now l).isSome = (getRunningEntryL l).isSome
  | [] => rfl
  | e :: es => by
    have he := stopRunningE_isSome now e
    have hl := stopRunningL_isSome now es
    cases hse : stopRunningE now e with
    | some e' =>
      rw [hse] at he
      cases hge : getRunningEntryE e with
      | some r => simp [stopRunningL, getRunningEntryL, hse, hge]
      | none => rw [hge] at he; simp at he
    | none =>
      rw [hse] at he
      cases hge : getRunningEntryE e with
      | some r => rw [hge] at he; simp at he
      | none => simp [stopRunningL, getRunningEntryL, hse, hge, hl]

theorem stopRunningE_isSome (now : String) : (e : Entry) →
    (stopRunningE now e).isSome = (getRunningEntryE e).isSome
  | .mk n st en (some l) c => by
    have hl := stopRunningL_isSome now l
    simp [stopRunningE, getRunningEntryE, hl]
  | .mk n st en none c => by
    by_cases ht : truthyTime en = true <;> simp [stopRunningE, getRunningEntryE, ht]

end

theorem stopBlockStep_eq (now : String) (a : Bool) (c : List Char)
    (b : List Char × List Char) :
    stopBlockStep now (a, c) b =
      if blockRunning b = true then (true, replaceFirstL c b.1 (stopReplacement now b))
      else (a, c) := by
  unfold stopBlockStep blockRunning stopReplacement
  cases hd : decodeTrackerE ⟨b.2⟩ with
  | error e => simp
  | ok t =>
    by_cases hr : isRunning t = true
    · have hs : (stopRunningL now t.entries).isSome = true := by
        rw [stopRunningL_isSome]
        exact hr
      obtain ⟨es', hes⟩ := Option.isSome_iff_exists.mp hs
      simp [hr, hes]
    · have hf : isRunning t = false := by simpa using hr
      simp [hf]

theorem foldl_stopBlockStep_fst (now : String) :
    ∀ (bs : List (List Char × List Char)) (a : Bool) (c : List Char),
      (bs.foldl (stopBlockStep now) (a, c)).1 = (a || bs.any blockRunning) := by
  intro bs
  induction bs with
  | nil => intro a c; simp
  | cons b bs ih =>
    intro a c
    rw [List.foldl_cons, stopBlockStep_eq]
    cases hb : blockRunning b with
    | true => simp [hb, ih]
    | false => simp [hb, ih]

theorem foldl_stopBlockStep_snd (now : String) :
    ∀ (bs : List (List Char × List Char)) (a1 a2 : Bool) (c : List Char),
      (bs.foldl (stopBlockStep now) (a1, c)).2 =
        ((bs.filter blockRunning).foldl (stopBlockStep now) (a2, c)).2 := by
  intro bs
  induction bs with
  | nil => intro a1 a2 c; rfl
  | cons b bs ih =>
    intro a1 a2 c
    by_cases hb : blockRunning b = true
    · rw [List.foldl_cons, stopBlockStep_eq, if_pos hb,
        List.filter_cons_of_pos (by simp [hb]), List.foldl_cons, stopBlockStep_eq, if_pos hb]
      exact ih true true _
    · rw [List.foldl_cons, stopBlockStep_eq, if_neg hb,
        List.filter_cons_of_neg (by simpa using hb)]
      exact ih a1 a2 c

/-- C10: the per-document auto-stop scan (a) reports a modification — and
hence triggers its single write-back — exactly when some fenced block
decodes to a running tracker, (b) computes its output from the running,
well-decoded blocks alone, so malformed blocks are skipped without
aborting the others, and (c) on a document with a running block, a
malformed block and another running block, both valid blocks are stopped
and spliced while the malformed one survives verbatim. -/
theorem C10_scan_fault_isolation :
    (∀ (content now : String),
      (stopAllRunnersInFile content now).1 = (findBlocksL content.data).any blockRunning ∧
      (stopAllRunnersInFile content now).2 =
        String.mk (((findBlocksL content.data).filter blockRunning).foldl
          (stopBlockStep now) (false, content.data)).2) ∧
    stopAllRunnersInFile
        "h\n```time-tracker-plus\n\x7b\"entries\":[\x7b\"name\":\"a\",\"startTime\":\"t0\",\"endTime\":null\x7d]\x7d\n```\nmid\n```time-tracker-plus\n\x7boops\n```\n```time-tracker-plus\n\x7b\"entries\":[\x7b\"name\":\"b\",\"startTime\":\"t1\",\"endTime\":null\x7d]\x7d\n```\ntail"
        "t9" =
      (true,
        "h\n```time-tracker-plus\n\x7b\"entries\":[\x7b\"name\":\"a\",\"startTime\":\"t0\",\"endTime\":\"t9\"\x7d]\x7d\n```\nmid\n```time-tracker-plus\n\x7boops\n```\n```time-tracker-plus\n\x7b\"entries\":[\x7b\"name\":\"b\",\"startTime\":\"t1\",\"endTime\":\"t9\"\x7d]\x7d\n```\ntail") := by
  constructor
  · intro content now
    constructor
    · show ((findBlocksL content.data).foldl (stopBlockStep now) (false, content.data)).1 = _
      rw [foldl_stopBlockStep_fst]
      simp
    · show String.mk ((findBlocksL content.data).foldl
          (stopBlockStep now) (false, content.data)).2 = _
      rw [foldl_stopBlockStep_snd now (findBlocksL content.data) false false content.data]
  · rfl
